import Mathlib

/-!
# Automata — verification of the execution-coordination core

A shallow embedding of the Automata workflow system (Go) in Lean 4:
flow specs, DAG construction, ready-set computation, orchestrator run
state, scheduler idempotency, worker retry/backoff, the HTTP executor's
response handling and the template renderer, each translated from the
corresponding Go source, together with theorems settling the spec claims.

Conventions:
* Go maps keyed by strings become association lists `List (String × α)`;
  Go string-sets (`map[string]bool`) become `List String` with `contains`.
* Go `time.Duration` (int64 nanoseconds) becomes `Int` nanoseconds; Go
  map-iteration order is fixed to insertion order (every claim proved
  here is order-insensitive or quantified over the stored order).
* Fallible Go functions return `Except`/`Option`.
-/

namespace Automata

/-- Dynamic JSON values (Go `any` holding decoded JSON / config data). -/
inductive Json where
  | null : Json
  | bool (b : Bool) : Json
  | num (n : Int) : Json
  | str (s : String) : Json
  | arr (elems : List Json) : Json
  | obj (fields : List (String × Json)) : Json

/-- Go `map[string]any`: an association list of JSON values. -/
abbrev JsonMap := List (String × Json)

/-- `domain.RetryPolicy` (internal/domain/status.go). -/
structure RetryPolicy where
  maxAttempts : Int
  backoff : String
  initialDelayMs : Int
  maxDelayMs : Int
  onStatus : List Int
deriving DecidableEq, Repr

/-! ## Worker backoff (`calculateBackoff`, worker package) -/

/-- One nanosecond-denominated second (Go `time.Second`). -/
def second : Int := 1000000000

/-- Go `time.Millisecond` in nanoseconds. -/
def millisecond : Int := 1000000

/-- The `for i := 1; i < attempt; i++` doubling loop of `calculateBackoff`:
doubles `delay` `k` times but clips to `maxDelay` and stops as soon as the
doubled value exceeds it. -/
def expBackoffLoop : Nat → Int → Int → Int
  | 0, delay, _ => delay
  | Nat.succ k, delay, maxDelay =>
      let d := delay * 2
      if d > maxDelay then maxDelay else expBackoffLoop k d maxDelay

/-- Effective initial delay of `calculateBackoff`: `initial_delay_ms`
converted to nanoseconds, defaulting to 1 s when non-positive. -/
def effInitialDelay (p : RetryPolicy) : Int :=
  let d := p.initialDelayMs * millisecond
  if d ≤ 0 then second else d

/-- Effective max delay of `calculateBackoff`: `max_delay_ms` converted to
nanoseconds, defaulting to 30 s when non-positive. -/
def effMaxDelay (p : RetryPolicy) : Int :=
  let d := p.maxDelayMs * millisecond
  if d ≤ 0 then 30 * second else d

/-- `calculateBackoff` (worker package): delay in nanoseconds before the
retry following the given attempt number. -/
def calculateBackoff (attempt : Int) (policy : Option RetryPolicy) : Int :=
  match policy with
  | none => second
  | some p =>
      let initialDelay := effInitialDelay p
      let maxDelay := effMaxDelay p
      let delay :=
        if p.backoff = "exponential" then
          expBackoffLoop (attempt - 1).toNat initialDelay maxDelay
        else
          initialDelay
      if delay > maxDelay then maxDelay else delay

/-- The backoff delay as the amended claim states it: 1 s for a nil
policy; under `"exponential"`, the effective initial delay doubled
`attempt − 1` times and clipped at the effective max delay; under
`"fixed"` or any unknown backoff, the effective initial delay clipped at
the effective max delay (the effective delays apply the 1 s / 30 s
defaults for non-positive configured values). -/
def backoffSpec (attempt : Int) (policy : Option RetryPolicy) : Int :=
  match policy with
  | none => second
  | some p =>
      if p.backoff = "exponential" then
        min (effInitialDelay p * 2 ^ (attempt - 1).toNat) (effMaxDelay p)
      else
        min (effInitialDelay p) (effMaxDelay p)

/-- The retry policy of the spec's literal scenario: exponential,
initial 1 s, max 10 s. -/
def expPolicy : RetryPolicy :=
  { maxAttempts := 3, backoff := "exponential", initialDelayMs := 1000,
    maxDelayMs := 10000, onStatus := [] }

/-- A fixed-backoff policy whose initial delay (60 s) exceeds the
defaulted 30 s max delay. -/
def fixedPolicy60 : RetryPolicy :=
  { maxAttempts := 3, backoff := "fixed", initialDelayMs := 60000,
    maxDelayMs := 0, onStatus := [] }

/-! ## Template rendering (`internal/engine/template.go`) -/

/-- `engine.StepContext`: outputs + status of one finished step. -/
structure StepContext where
  outputs : JsonMap
  status : String

/-- `engine.Context`: data exposed to templates. -/
structure Context where
  inputs : JsonMap
  steps : List (String × StepContext)
  env : List (String × String)

/-- `engine.NewContext`. -/
def NewContext (inputs : JsonMap) : Context :=
  { inputs := inputs, steps := [], env := [] }

/-- `Context.AddStepResult`: map insert of the step's outputs and status
(nil outputs become an empty map). -/
def addStepResult (c : Context) (stepID : String) (outputs : Option JsonMap)
    (status : String) : Context :=
  { c with steps :=
      (c.steps.filter (fun kv => kv.1 ≠ stepID)) ++
        [(stepID, { outputs := outputs.getD [], status := status })] }

/-- Go `strings.Contains(tmpl, "\x7b\x7b")` — does the string contain the
template-open marker? -/
def containsTemplateOpen (s : String) : Bool :=
  decide ("\x7b\x7b".toList <:+: s.toList)

/-- `engine.Render`, parameterized by the Go `text/template`
parse-and-execute pipeline `exec` (abstract here): a string without the
template-open marker is returned as is, anything else goes through the
template engine. -/
def render (exec : String → Context → Except String String)
    (tmpl : String) (ctx : Context) : Except String String :=
  if containsTemplateOpen tmpl then exec tmpl ctx else .ok tmpl

mutual

/-- `engine.RenderValue`: strings are rendered, maps and arrays are
rendered recursively, all other scalars pass through. -/
def renderValue (exec : String → Context → Except String String) :
    Json → Context → Except String Json
  | .str s, ctx => (render exec s ctx).map .str
  | .obj fields, ctx => (renderFields exec fields ctx).map .obj
  | .arr elems, ctx => (renderElems exec elems ctx).map .arr
  | v, _ => .ok v

/-- The `map[string]any` branch of `RenderValue`. -/
def renderFields (exec : String → Context → Except String String) :
    List (String × Json) → Context → Except String (List (String × Json))
  | [], _ => .ok []
  | (k, v) :: rest, ctx => do
      let v' ← renderValue exec v ctx
      let rest' ← renderFields exec rest ctx
      .ok ((k, v') :: rest')

/-- The `[]any` branch of `RenderValue`. -/
def renderElems (exec : String → Context → Except String String) :
    List Json → Context → Except String (List Json)
  | [], _ => .ok []
  | v :: rest, ctx => do
      let v' ← renderValue exec v ctx
      let rest' ← renderElems exec rest ctx
      .ok (v' :: rest')

end

/-- `engine.RenderConfig`: renders every value of a step config map
(`RenderValue` on a `map[string]any` always returns a map, so the Go
type assertion always succeeds). -/
def renderConfig (exec : String → Context → Except String String)
    (config : JsonMap) (ctx : Context) : Except String JsonMap :=
  renderFields exec config ctx

mutual

/-- Every string leaf of the value is free of the template-open marker. -/
def plainJson : Json → Bool
  | .str s => !containsTemplateOpen s
  | .obj fields => plainJsonFields fields
  | .arr elems => plainJsonElems elems
  | _ => true

/-- `plainJson` over map fields. -/
def plainJsonFields : List (String × Json) → Bool
  | [] => true
  | (_, v) :: rest => plainJson v && plainJsonFields rest

/-- `plainJson` over array elements. -/
def plainJsonElems : List Json → Bool
  | [] => true
  | v :: rest => plainJson v && plainJsonElems rest

end

/-- A concrete (always failing) template engine for witnesses: if `Render`
ever consulted the engine, rendering would fail. -/
def failingExec : String → Context → Except String String :=
  fun _ _ => .error "parse error"

/-- A concrete plain config for the C10 witness. -/
def plainCfg : JsonMap :=
  [("url", Json.str "http://example.com"), ("n", Json.num 3),
   ("hdr", Json.obj [("Accept", Json.str "text/plain")])]

/-! ## HTTP executor response handling
(`internal/worker/http_executor.go`) -/

/-- `worker.ExecutionResult`: outputs plus a logical error message (the
empty string means no logical error, as in Go's zero value; `Outputs`
is a nil-able Go map, hence an `Option`). -/
structure ExecutionResult where
  outputs : Option JsonMap
  error : String

/-- An HTTP response as seen by `HTTPExecutor.Execute` after
`client.Do`: status code, headers (first value per key, as
`resp.Header.Get` returns) and the fully-read body bytes. -/
structure HttpResponse where
  statusCode : Int
  headers : List (String × String)
  body : String

/-- The character list is a non-empty run of decimal digits. -/
def allDigits (cs : List Char) : Bool :=
  !cs.isEmpty && cs.all Char.isDigit

/-- Decimal digits to a natural number. -/
def digitsToNat (cs : List Char) : Nat :=
  cs.foldl (fun a c => a * 10 + (c.toNat - 48)) 0

/-- Model of Go `encoding/json.Unmarshal` into `any`, restricted to the
body shapes this development evaluates: integer literals, `true`,
`false`, `null` and simple quoted strings decode to the corresponding
value; every other body is treated as a decode failure.  (The real
decoder accepts more inputs; all concrete bodies used in theorems below
are ones on which this restriction agrees with it.) -/
def jsonUnmarshal (s : String) : Option Json :=
  if s = "true" then some (.bool true)
  else if s = "false" then some (.bool false)
  else if s = "null" then some .null
  else
    let cs := s.toList
    match cs with
    | '-' :: rest => if allDigits rest then some (.num (-(digitsToNat rest : Int))) else none
    | '"' :: rest =>
        let inner := rest.dropLast
        if rest.getLast? = some '"' ∧
            inner.all (fun c => c ≠ '"' ∧ c ≠ '\\') then
          some (.str (String.mk inner))
        else none
    | _ => if allDigits cs then some (.num (digitsToNat cs)) else none

/-- Go `truncate(s, maxLen)` from http_executor.go: cut to `maxLen`
characters and append `"..."` when longer. -/
def truncate (s : String) (maxLen : Nat) : String :=
  if s.length ≤ maxLen then s else String.mk (s.toList.take maxLen) ++ "..."

/-- `buildOutputs` (http_executor.go): headers copied over, the body
JSON-decoded with fallback to the raw string — the response Content-Type
is never consulted. -/
def buildOutputs (resp : HttpResponse) : JsonMap :=
  let parsedBody :=
    match jsonUnmarshal resp.body with
    | some v => v
    | none => Json.str resp.body
  [("status_code", Json.num resp.statusCode),
   ("headers", Json.obj (resp.headers.map (fun kv => (kv.1, Json.str kv.2)))),
   ("body", parsedBody)]

/-- The tail of `HTTPExecutor.Execute` once a response has been read:
build the outputs and, for status codes ≥ 400, attach the logical error
`"HTTP \x7bcode\x7d: \x7btruncated body\x7d"`. -/
def httpExecuteResponse (resp : HttpResponse) : ExecutionResult :=
  let outputs := buildOutputs resp
  if resp.statusCode ≥ 400 then
    { outputs := some outputs,
      error := "HTTP " ++ toString resp.statusCode ++ ": " ++ truncate resp.body 200 }
  else
    { outputs := some outputs, error := "" }

/-- The plain-text numeric response on which the claim's Content-Type
clause fails: Content-Type `text/plain`, body `"123"`. -/
def plainTextNumResponse : HttpResponse :=
  { statusCode := 200, headers := [("Content-Type", "text/plain")],
    body := "123" }

/-- A concrete 503 response for the C9 witness. -/
def unavailableResponse : HttpResponse :=
  { statusCode := 503, headers := [("Content-Type", "text/plain")],
    body := "busy" }

/-! ## Flow specs (`internal/domain/status.go`) -/

mutual

/-- `domain.StepDef`: one step of a flow (id, name, type, depends_on,
condition, config, retry override, parallel branches). -/
inductive StepDef where
  | mk (id : String) (name : String) (type : String)
      (dependsOn : List String) (condition : String) (config : JsonMap)
      (retry : Option RetryPolicy) (branches : List Branch) : StepDef

/-- `domain.Branch`: one branch of a parallel step. -/
inductive Branch where
  | mk (id : String) (steps : List StepDef) : Branch

end

/-- `StepDef.ID`. -/
def StepDef.id : StepDef → String
  | .mk i _ _ _ _ _ _ _ => i

/-- `StepDef.Name`. -/
def StepDef.name : StepDef → String
  | .mk _ n _ _ _ _ _ _ => n

/-- `StepDef.Type`. -/
def StepDef.type : StepDef → String
  | .mk _ _ t _ _ _ _ _ => t

/-- `StepDef.DependsOn`. -/
def StepDef.dependsOn : StepDef → List String
  | .mk _ _ _ d _ _ _ _ => d

/-- `StepDef.Condition`. -/
def StepDef.condition : StepDef → String
  | .mk _ _ _ _ c _ _ _ => c

/-- `StepDef.Config`. -/
def StepDef.config : StepDef → JsonMap
  | .mk _ _ _ _ _ c _ _ => c

/-- `StepDef.Retry`. -/
def StepDef.retry : StepDef → Option RetryPolicy
  | .mk _ _ _ _ _ _ r _ => r

/-- `StepDef.Branches`. -/
def StepDef.branches : StepDef → List Branch
  | .mk _ _ _ _ _ _ _ b => b

/-- `Branch.ID`. -/
def Branch.id : Branch → String
  | .mk i _ => i

/-- `Branch.Steps`. -/
def Branch.steps : Branch → List StepDef
  | .mk _ s => s

/-- `domain.StepDefaults` (retry only; timeout is unused by the claims). -/
structure StepDefaults where
  retry : Option RetryPolicy

/-- `domain.FlowSpec` (the fields the execution core reads). -/
structure FlowSpec where
  steps : List StepDef
  defaults : Option StepDefaults

/-! ## Spec validation (`engine.Validate`) -/

/-- The typed base errors of the engine (template_test.go's error block). -/
inductive BaseErr where
  | emptySteps
  | emptyStepID
  | duplicateStepID
  | unknownStepType
  | missingDependency
  | cyclicDependency
  | selfDependency
  | emptyBranches
  | emptyBranchID
  | duplicateBranchID
  | emptyBranchSteps
deriving DecidableEq, Repr

/-- `engine.ValidationError`: the offending step, field and typed base
error (the formatted message string is not modelled). -/
structure ValidationError where
  stepID : String
  field : String
  base : BaseErr
deriving DecidableEq, Repr

/-- `engine.validStepTypes`. -/
def validStepTypes : List String := ["http", "delay", "transform", "parallel"]

mutual

/-- `engine.ValidateStep` with `engine.validateParallelStep` inlined in
the `parallel` branch (they are separate Go functions; the inlining is
forced by structural recursion and changes nothing observable). Go
temporarily swaps a branch step's ID to its fully-qualified form before
validating it; here the effective (possibly fully-qualified) id is the
explicit `fqId` argument, used exactly where Go uses `step.ID` after the
swap. Returns the grown set of seen step ids. -/
def validateStep (fqId : String) : StepDef → List String →
    Except ValidationError (List String)
  | .mk _ _ ty deps _ _ _ branches, ids =>
      if fqId = "" then .error ⟨"", "id", .emptyStepID⟩
      else if ids.contains fqId then .error ⟨fqId, "id", .duplicateStepID⟩
      else
        let ids := ids ++ [fqId]
        if ty = "" then .error ⟨fqId, "type", .unknownStepType⟩
        else if !validStepTypes.contains ty then
          .error ⟨fqId, "type", .unknownStepType⟩
        else if deps.contains fqId then
          .error ⟨fqId, "depends_on", .selfDependency⟩
        else if ty = "parallel" then
          if branches.isEmpty then .error ⟨fqId, "branches", .emptyBranches⟩
          else validateBranches fqId branches [] ids
        else .ok ids

/-- The branch loop of `validateParallelStep`, threading the seen branch
ids and step ids. -/
def validateBranches (fqId : String) :
    List Branch → List String → List String →
    Except ValidationError (List String)
  | [], _, ids => .ok ids
  | .mk brId brSteps :: rest, branchIds, ids =>
      if brId = "" then .error ⟨fqId, "branches", .emptyBranchID⟩
      else if branchIds.contains brId then
        .error ⟨fqId, "branches", .duplicateBranchID⟩
      else if brSteps.isEmpty then
        .error ⟨fqId, "branches", .emptyBranchSteps⟩
      else do
        let ids' ← validateBranchSteps fqId brId brSteps ids
        validateBranches fqId rest (branchIds ++ [brId]) ids'

/-- The per-branch step loop of `validateParallelStep`: each branch step
is validated under its fully-qualified
`\x7bparallel\x7d.\x7bbranch\x7d.\x7bstep\x7d` id. -/
def validateBranchSteps (fqId : String) (brId : String) :
    List StepDef → List String → Except ValidationError (List String)
  | [], ids => .ok ids
  | bstep :: rest, ids => do
      let ids' ← validateStep (fqId ++ "." ++ brId ++ "." ++ bstep.id) bstep ids
      validateBranchSteps fqId brId rest ids'

end

/-- The step loop of `engine.Validate`, accumulating all seen ids. -/
def validateSteps : List StepDef → List String →
    Except ValidationError (List String)
  | [], ids => .ok ids
  | step :: rest, ids => do
      let ids' ← validateStep step.id step ids
      validateSteps rest ids'

mutual

/-- `engine.validateDependencies`: every `depends_on` entry must be a
known step id; recurses into parallel branches. -/
def validateDepsStep : StepDef → List String →
    Except ValidationError Unit
  | .mk sId _ ty deps _ _ _ branches, ids =>
      match deps.find? (fun dep => !(ids.contains dep)) with
      | some _ => .error ⟨sId, "depends_on", .missingDependency⟩
      | none =>
          if ty = "parallel" then validateDepsBranches branches ids
          else .ok ()

/-- The step loop of `validateDependencies`. -/
def validateDeps : List StepDef → List String →
    Except ValidationError Unit
  | [], _ => .ok ()
  | step :: rest, ids =>
      match validateDepsStep step ids with
      | .error e => .error e
      | .ok _ => validateDeps rest ids

/-- The branch recursion of `validateDependencies`. -/
def validateDepsBranches : List Branch → List String →
    Except ValidationError Unit
  | [], _ => .ok ()
  | .mk _ brSteps :: rest, ids =>
      match validateDeps brSteps ids with
      | .error e => .error e
      | .ok _ => validateDepsBranches rest ids

end

/-- `engine.Validate`: nil / empty-steps check, per-step validation
collecting all (fully-qualified) step ids, then dependency resolution
against the collected ids. -/
def validate (spec : Option FlowSpec) : Except ValidationError Unit :=
  match spec with
  | none => .error ⟨"", "", .emptySteps⟩
  | some spec =>
      if spec.steps.isEmpty then .error ⟨"", "", .emptySteps⟩
      else do
        let ids ← validateSteps spec.steps []
        validateDeps spec.steps ids

/-- Success test of an `Except` computation. -/
def isOkE {ε α : Type} : Except ε α → Bool
  | .ok _ => true
  | .error _ => false

mutual

/-- The validation-order list of (fully-qualified id, step) pairs the
validator visits: the step itself, then — for parallel steps — the
branch steps under their fully-qualified ids, recursively. -/
def flatStep (fqId : String) : StepDef → List (String × StepDef)
  | .mk n1 n2 ty deps c cfg rp branches =>
      (fqId, .mk n1 n2 ty deps c cfg rp branches) ::
        (if ty = "parallel" then flatBranches fqId branches else [])

/-- `flatStep` over the branches of a parallel step. -/
def flatBranches (fqId : String) : List Branch → List (String × StepDef)
  | [] => []
  | .mk brId brSteps :: rest =>
      flatBranchSteps fqId brId brSteps ++ flatBranches fqId rest

/-- `flatStep` over one branch's steps. -/
def flatBranchSteps (fqId brId : String) :
    List StepDef → List (String × StepDef)
  | [] => []
  | bs :: rest =>
      flatStep (fqId ++ "." ++ brId ++ "." ++ bs.id) bs ++
        flatBranchSteps fqId brId rest

end

/-- All (fully-qualified id, step) pairs of a spec, in validation
order. -/
def specFlat (spec : FlowSpec) : List (String × StepDef) :=
  spec.steps.flatMap (fun s => flatStep s.id s)

/-- The per-entry conditions `ValidateStep` enforces on a visited
(fully-qualified id, step) pair: non-empty effective id, known type, no
self-dependency under the effective id, and — for parallel steps —
non-empty branches, each branch with an id and steps, and no duplicate
branch ids. -/
def entryOk (p : String × StepDef) : Prop :=
  p.1 ≠ "" ∧ p.2.type ∈ validStepTypes ∧ p.1 ∉ p.2.dependsOn ∧
  (p.2.type = "parallel" →
    p.2.branches ≠ [] ∧ (∀ b ∈ p.2.branches, b.id ≠ "" ∧ b.steps ≠ []) ∧
    (p.2.branches.map Branch.id).Nodup)

/-- The ids `l` are mutually distinct and all new with respect to
`ids`. -/
def freshFor (l : List String) (ids : List String) : Prop :=
  l.Nodup ∧ ∀ i ∈ l, i ∉ ids

/-- Claim-side definition (C7): the disjunction of offending conditions
the claim lists, over the spec's fully-qualified step collection — nil
spec or empty steps; an empty or duplicate (fully-qualified) step id; a
type outside the known set; a `depends_on` entry naming no step; a step
depending on itself; a parallel step without branches; a branch without
an id or without steps; duplicate branch ids within one parallel step. -/
def claimViolationSome (spec : FlowSpec) : Prop :=
      spec.steps = [] ∨
      (∃ p ∈ specFlat spec, p.1 = "") ∨
      ¬ ((specFlat spec).map Prod.fst).Nodup ∨
      (∃ p ∈ specFlat spec, p.2.type ∉ validStepTypes) ∨
      (∃ p ∈ specFlat spec, ∃ d ∈ p.2.dependsOn,
        d ∉ (specFlat spec).map Prod.fst) ∨
      (∃ p ∈ specFlat spec, p.1 ∈ p.2.dependsOn) ∨
      (∃ p ∈ specFlat spec, p.2.type = "parallel" ∧ p.2.branches = []) ∨
      (∃ p ∈ specFlat spec, p.2.type = "parallel" ∧
        ∃ b ∈ p.2.branches, b.id = "" ∨ b.steps = []) ∨
      (∃ p ∈ specFlat spec, p.2.type = "parallel" ∧
        ¬ (p.2.branches.map Branch.id).Nodup)

/-- Emptiness of a list is decidable without equality on the
elements. -/
instance listNilDec {α : Type} (l : List α) : Decidable (l = []) :=
  match l with
  | [] => .isTrue rfl
  | _ :: _ => .isFalse (fun h => List.noConfusion h)

/-- `claimViolationSome` is decidable (so the witness can evaluate it). -/
instance claimViolationSomeDec (spec : FlowSpec) :
    Decidable (claimViolationSome spec) := by
  unfold claimViolationSome
  infer_instance

/-- Claim-side definition (C7, continued): the nil-spec case. -/
def claimViolation : Option FlowSpec → Prop
  | none => True
  | some spec => claimViolationSome spec

/-- `claimViolation` is decidable. -/
instance claimViolationDec : (spec : Option FlowSpec) →
    Decidable (claimViolation spec)
  | none => .isTrue trivial
  | some s => decidable_of_iff (claimViolationSome s) Iff.rfl

/-- The success conditions of `Validate` in declarative form. -/
def okConditions (spec : FlowSpec) : Prop :=
  spec.steps ≠ [] ∧ (∀ p ∈ specFlat spec, entryOk p) ∧
  ((specFlat spec).map Prod.fst).Nodup ∧
  (∀ p ∈ specFlat spec, ∀ d ∈ p.2.dependsOn,
    d ∈ (specFlat spec).map Prod.fst)

/-! ## DAG construction (`internal/engine/dag.go`) -/

/-- `engine.Node`: edges are stored as node ids (Go stores pointers into
the node map; by the time edges are added the map is final, so ids and
pointers agree). -/
structure Node where
  id : String
  step : Option StepDef
  inDegree : Int
  dependsOn : List String
  dependents : List String
  isJoin : Bool
  parallelId : String
  branchId : String

/-- The `Nodes` map of the DAG: insertion-ordered association list. -/
abbrev NodeMap := List (String × Node)

/-- Go map assignment `m[k] = v`: replace in place or append. -/
def setAssoc {α : Type} : List (String × α) → String → α → List (String × α)
  | [], key, v => [(key, v)]
  | (k, w) :: rest, key, v =>
      if k = key then (k, v) :: rest else (k, w) :: setAssoc rest key v

/-- Apply `f` to the node stored under `key` (no-op when absent —
unreachable in the Go code, which holds a live pointer). -/
def modifyNode (nodes : NodeMap) (key : String) (f : Node → Node) : NodeMap :=
  nodes.map (fun p => if p.1 = key then (p.1, f p.2) else p)

/-- `DAG.addParallelNodes`: one node per branch step under its
fully-qualified id (nested parallels are NOT expanded further — the Go
code leaves that "for the future"), plus the virtual join node. -/
def addParallelNodes (nodes : NodeMap) (p : StepDef) : NodeMap :=
  let nodes := p.branches.foldl (fun ns branch =>
    branch.steps.foldl (fun ns bstep =>
      let fullId := p.id ++ "." ++ branch.id ++ "." ++ bstep.id
      setAssoc ns fullId
        { id := fullId, step := some bstep, inDegree := 0, dependsOn := [],
          dependents := [], isJoin := false, parallelId := p.id,
          branchId := branch.id }) ns) nodes
  let joinId := p.id ++ ".join"
  setAssoc nodes joinId
    { id := joinId, step := none, inDegree := 0, dependsOn := [],
      dependents := [], isJoin := true, parallelId := p.id, branchId := "" }

/-- `DAG.addNode`: the step's own node, plus branch/join nodes for
parallel steps. -/
def addNodeStep (nodes : NodeMap) (step : StepDef) : NodeMap :=
  let nodes := setAssoc nodes step.id
    { id := step.id, step := some step, inDegree := 0, dependsOn := [],
      dependents := [], isJoin := false, parallelId := "", branchId := "" }
  if step.type = "parallel" then addParallelNodes nodes step else nodes

/-- `DAG.addEdge`: skip when the dependency is already recorded (by id),
otherwise append to both adjacency lists and bump the in-degree. -/
def addEdge (nodes : NodeMap) (fromId toId : String) : NodeMap :=
  match nodes.lookup toId with
  | none => nodes
  | some toN =>
      if toN.dependsOn.contains fromId then nodes
      else
        let nodes := modifyNode nodes fromId
          (fun n => { n with dependents := n.dependents ++ [toId] })
        modifyNode nodes toId (fun n =>
          { n with dependsOn := n.dependsOn ++ [fromId]
                   inDegree := n.inDegree + 1 })

/-- The per-branch chain of `DAG.linkParallelDependencies`: branch step 0
depends on the parallel start node, step i on step i−1; explicit
`depends_on` entries resolve first in the branch's namespace, then
flow-level, and are silently skipped when unknown; the last step feeds
the join node. -/
def linkBranchSteps (pId brId joinId : String) :
    NodeMap → Option String → List StepDef → NodeMap
  | nodes, _, [] => nodes
  | nodes, prev, bstep :: rest =>
      let fullId := pId ++ "." ++ brId ++ "." ++ bstep.id
      let nodes := match prev with
        | none => addEdge nodes pId fullId
        | some prevId => addEdge nodes prevId fullId
      let nodes := bstep.dependsOn.foldl (fun ns dep =>
        let localDep := pId ++ "." ++ brId ++ "." ++ dep
        if (ns.lookup localDep).isSome then addEdge ns localDep fullId
        else if (ns.lookup dep).isSome then addEdge ns dep fullId
        else ns) nodes
      let nodes := if rest.isEmpty then addEdge nodes fullId joinId else nodes
      linkBranchSteps pId brId joinId nodes (some fullId) rest

/-- `DAG.linkParallelDependencies`. -/
def linkParallelDependencies (nodes : NodeMap) (p : StepDef) : NodeMap :=
  p.branches.foldl (fun ns branch =>
    linkBranchSteps p.id branch.id (p.id ++ ".join") ns none branch.steps)
    nodes

/-- DAG build errors: unresolved flow-level dependency, or a cycle found
by the topological sort. -/
inductive BuildError where
  | missingDependency (stepID dep : String)
  | cyclic
deriving DecidableEq, Repr

/-- `DAG.linkDependencies`: flow-level `depends_on` resolves to the named
node, else to its `.join` node, else errors; then internal parallel
edges. -/
def linkDependencies (nodes : NodeMap) (step : StepDef) :
    Except BuildError NodeMap := do
  let nodes ← step.dependsOn.foldlM (fun ns dep =>
    if (ns.lookup dep).isSome then .ok (addEdge ns dep step.id)
    else if (ns.lookup (dep ++ ".join")).isSome then
      .ok (addEdge ns (dep ++ ".join") step.id)
    else .error (.missingDependency step.id dep)) nodes
  if step.type = "parallel" then .ok (linkParallelDependencies nodes step)
  else .ok nodes

/-- `DAG.findRootNodes`: all nodes of in-degree 0, in map order. -/
def findRootNodes (nodes : NodeMap) : List Node :=
  nodes.filterMap (fun p => if p.2.inDegree = 0 then some p.2 else none)

/-- One decrement pass of Kahn's algorithm over a popped node's
dependents, collecting the ids whose in-degree reached zero. -/
def decrementDependents (deps : List String) (inDeg : List (String × Int)) :
    List (String × Int) × List String :=
  deps.foldl (fun acc depId =>
    let v := ((acc.1.lookup depId).getD 0) - 1
    (setAssoc acc.1 depId v, if v = 0 then acc.2 ++ [depId] else acc.2))
    (inDeg, [])

/-- The queue loop of `DAG.topologicalSort` (fuelled; the fuel passed by
`topologicalSort` strictly exceeds the possible number of iterations). -/
def kahnLoop (nodes : NodeMap) :
    Nat → List String → List (String × Int) → List String → List String
  | 0, _, _, order => order
  | _ + 1, [], _, order => order
  | fuel + 1, id :: queue, inDeg, order =>
      match nodes.lookup id with
      | none => kahnLoop nodes fuel queue inDeg (order ++ [id])
      | some node =>
          let r := decrementDependents node.dependents inDeg
          kahnLoop nodes fuel (queue ++ r.2) r.1 (order ++ [id])

/-- `DAG.topologicalSort` (Kahn): error when some node was never
reached — a cycle. -/
def topologicalSort (nodes : NodeMap) (roots : List Node) :
    Except BuildError (List Node) :=
  let inDeg := nodes.map (fun p => (p.1, p.2.inDegree))
  let fuel := nodes.length +
    nodes.foldl (fun a p => a + p.2.dependents.length) 0 + 1
  let order := kahnLoop nodes fuel (roots.map (fun n => n.id)) inDeg []
  if order.length = nodes.length then
    .ok (order.filterMap (fun id => nodes.lookup id))
  else .error .cyclic

/-- `engine.DAG`. -/
structure DAG where
  nodes : NodeMap
  rootNodes : List Node
  order : List Node

/-- `engine.BuildDAG`: create all nodes, link dependencies, find roots,
topologically sort. -/
def buildDAG (spec : FlowSpec) : Except BuildError DAG := do
  let nodes1 ← spec.steps.foldlM (fun ns st => linkDependencies ns st)
    (spec.steps.foldl addNodeStep [])
  let order ← topologicalSort nodes1 (findRootNodes nodes1)
  .ok { nodes := nodes1, rootNodes := findRootNodes nodes1, order := order }

/-- `DAG.GetReadyNodes` over the stored node order: skips completed and
running nodes; a join whose dependencies are all completed is silently
appended to the completed set instead of being returned; a non-join node
whose dependencies are all completed is returned. Returns the ready list
and the (possibly grown) completed set. -/
def getReadyLoop : List (String × Node) → List String → List String →
    List Node × List String
  | [], completed, _ => ([], completed)
  | (_, node) :: rest, completed, running =>
      if completed.contains node.id || running.contains node.id then
        getReadyLoop rest completed running
      else if node.isJoin then
        if node.dependsOn.all completed.contains then
          getReadyLoop rest (completed ++ [node.id]) running
        else getReadyLoop rest completed running
      else
        if node.dependsOn.all completed.contains then
          let r := getReadyLoop rest completed running
          (node :: r.1, r.2)
        else getReadyLoop rest completed running

/-- `DAG.GetReadyNodes`. -/
def getReadyNodes (d : DAG) (completed running : List String) :
    List Node × List String :=
  getReadyLoop d.nodes completed running

/-- `DAG.GetExecutableNodes`: all non-join nodes. -/
def getExecutableNodes (d : DAG) : List Node :=
  d.nodes.filterMap (fun p => if p.2.isJoin then none else some p.2)

/-- `DAG.IsComplete`. -/
def dagIsComplete (d : DAG) (completed : List String) : Bool :=
  d.nodes.all (fun p => completed.contains p.2.id)

/-- The keys of an association list (the Go map's key set). -/
def keysOf {α : Type} (ns : List (String × α)) : List String :=
  ns.map Prod.fst

/-- The node ids the claim attributes to one top-level step: the step id
itself plus, for parallel steps, the fully-qualified
`\x7bparallel\x7d.\x7bbranch\x7d.\x7bstep\x7d` ids of its branch steps
and its `\x7bparallel\x7d.join` id. -/
def stepNodeIds (st : StepDef) : List String :=
  [st.id] ++
    (if st.type = "parallel" then
      (st.branches.flatMap fun b =>
        b.steps.map fun bs => st.id ++ "." ++ b.id ++ "." ++ bs.id) ++
        [st.id ++ ".join"]
    else [])

/-- The node-id set the claim states for a whole spec. -/
def specNodeIds (spec : FlowSpec) : List String :=
  spec.steps.flatMap stepNodeIds

/-- A plain (branch-free) step. -/
def simpleStep (id ty : String) (deps : List String) : StepDef :=
  .mk id "" ty deps "" [] none []

/-- A parallel step with the given branches. -/
def parallelStep (id : String) (deps : List String)
    (branches : List Branch) : StepDef :=
  .mk id "" "parallel" deps "" [] none branches

/-- Two HTTP steps depending on each other: passes `Validate`, which has
no cycle check, but fails `BuildDAG`'s Kahn sort. -/
def cyclicSpec : FlowSpec :=
  { steps := [simpleStep "A" "http" ["B"], simpleStep "B" "http" ["A"]],
    defaults := none }

/-- The spec's literal "Parallel + join" scenario:
`start → parallel\x7bbranch_a: [s1, s2], branch_b: [s1]\x7d → end`. -/
def parallelSampleSpec : FlowSpec :=
  { steps :=
      [simpleStep "start" "http" [],
       parallelStep "parallel" ["start"]
         [.mk "branch_a" [simpleStep "s1" "http" [], simpleStep "s2" "delay" []],
          .mk "branch_b" [simpleStep "s1" "http" []]],
       simpleStep "end" "http" ["parallel"]],
    defaults := none }

/-- A minimal one-parallel spec (`p` with one branch `b` holding one
step `s`). -/
def pOnlySpec : FlowSpec :=
  { steps := [parallelStep "p" [] [.mk "b" [simpleStep "s" "http" []]]],
    defaults := none }

/-- The DAG of `pOnlySpec` (extracted total; `buildDAG` succeeds on it). -/
def pOnlyDag : DAG :=
  match buildDAG pOnlySpec with
  | .ok d => d
  | .error _ => { nodes := [], rootNodes := [], order := [] }

/-- A spec with a dependency on an unknown step. -/
def c7badSpec : FlowSpec :=
  { steps := [simpleStep "A" "http" ["B"]], defaults := none }

/-- Well-formedness of the node map as the Go code maintains it: every
entry is stored under its node's id, and keys are unique. -/
def wfNodes (ns : NodeMap) : Prop :=
  (∀ p ∈ ns, p.1 = p.2.id) ∧ (keysOf ns).Nodup

/-! ## Runs, tasks and schedules (`internal/domain`) -/

/-- `domain.RunStatus`. -/
inductive RunStatus where
  | pending
  | running
  | succeeded
  | failed
  | cancelled
deriving DecidableEq, Repr

/-- `RunStatus.IsTerminal`. -/
def RunStatus.isTerminal : RunStatus → Bool
  | .succeeded | .failed | .cancelled => true
  | _ => false

/-- `domain.Run` (ids are modelled as strings; timestamps dropped). -/
structure Run where
  id : String
  flowId : String
  version : Int
  status : RunStatus
  inputs : JsonMap
  idempotencyKey : String
  isSandbox : Bool
  error : String

/-- `Run.MarkRunning`. -/
def Run.markRunning (r : Run) : Run := { r with status := .running }

/-- `Run.MarkSucceeded`. -/
def Run.markSucceeded (r : Run) : Run := { r with status := .succeeded }

/-- `Run.MarkFailed`. -/
def Run.markFailed (r : Run) (err : String) : Run :=
  { r with status := .failed, error := err }

/-- `domain.TaskStatus`. -/
inductive TaskStatus where
  | queued
  | running
  | succeeded
  | failed
deriving DecidableEq, Repr

/-- `domain.Task` (`Outputs` is nil-able in Go, hence an `Option`). -/
structure Task where
  id : String
  runId : String
  stepId : String
  name : String
  type : String
  attempt : Int
  status : TaskStatus
  payload : JsonMap
  outputs : Option JsonMap
  error : String

/-- `Task.MarkRunning`: attempt counter increments here. -/
def Task.markRunning (t : Task) : Task :=
  { t with status := .running, attempt := t.attempt + 1 }

/-- `Task.MarkSucceeded`. -/
def Task.markSucceeded (t : Task) (outputs : Option JsonMap) : Task :=
  { t with status := .succeeded, outputs := outputs }

/-- `Task.MarkFailed`. -/
def Task.markFailed (t : Task) (err : String) : Task :=
  { t with status := .failed, error := err }

/-- `Task.ResetForRetry`: back to QUEUED, error cleared, attempt kept. -/
def Task.resetForRetry (t : Task) : Task :=
  { t with status := .queued, error := "" }

/-- `Task.CanRetry`. -/
def Task.canRetry (t : Task) (maxAttempts : Int) : Bool :=
  t.attempt < maxAttempts

/-! ## Worker retry loop (`worker.go`: `executeWithRetry`, `shouldRetry`,
`processTask`) -/

/-- Result of one `executor.Execute(ctx, task)` call: either an
infrastructure error (`execErr != nil`, result nil) or an
`ExecutionResult` (possibly carrying a logical `Error`). -/
inductive ExecOutcome where
  | infra (msg : String)
  | res (r : ExecutionResult)

/-- The `lastResult` component of an outcome. -/
def ExecOutcome.result : ExecOutcome → Option ExecutionResult
  | .infra _ => none
  | .res r => some r

/-- The `lastErr` component of an outcome. -/
def ExecOutcome.err : ExecOutcome → Option String
  | .infra m => some m
  | .res _ => none

/-- The loop's success test
`lastErr == nil && (lastResult == nil || lastResult.Error == "")`. -/
def execSuccess : ExecOutcome → Bool
  | .infra _ => false
  | .res r => r.error == ""

/-- `shouldRetryHTTPStatus`: membership of the status code in `OnStatus`. -/
def shouldRetryHTTPStatus (statusCode : Int) (onStatus : List Int) : Bool :=
  onStatus.contains statusCode

/-- `Worker.shouldRetry`: infra errors always retry; no policy, no retry;
with a non-nil result, non-nil outputs and a non-empty `OnStatus` list the
`status_code` output (a JSON number, Go's `int` assertion) decides, a
missing or non-int `status_code` meaning no retry; otherwise retry. -/
def shouldRetry (result : Option ExecutionResult) (execErr : Option String)
    (policy : Option RetryPolicy) : Bool :=
  match execErr with
  | some _ => true
  | none =>
    match policy with
    | none => false
    | some p =>
      match result with
      | some r =>
        match r.outputs with
        | some outs =>
          if p.onStatus.length > 0 then
            match outs.lookup "status_code" with
            | some (Json.num code) => shouldRetryHTTPStatus code p.onStatus
            | _ => false
          else true
        | none => true
      | none => true

/-- `maxAttempts := 1; if policy != nil && policy.MaxAttempts > 0 ...` at
the top of `executeWithRetry`. -/
def effMaxAttempts (policy : Option RetryPolicy) : Int :=
  match policy with
  | some p => if p.maxAttempts > 0 then p.maxAttempts else 1
  | none => 1

/-- The `for` loop of `executeWithRetry`, fuelled. `exec i` is the outcome
of the i-th `executor.Execute` call (the executor and the repo are
abstracted; the sleep is irrelevant to the returned values). Returns the
mutated task, `lastResult`, `lastErr`, and the trace of task attempt
numbers under which each execution ran. -/
def executeWithRetryLoop (exec : Nat → ExecOutcome)
    (policy : Option RetryPolicy) (maxAttempts : Int) :
    Nat → Nat → Task → Task × Option ExecutionResult × Option String × List Int
  | 0, _, task => (task, none, none, [])
  | fuel + 1, idx, task =>
    let out := exec idx
    if execSuccess out then
      (task, out.result, out.err, [task.attempt])
    else if ! task.canRetry maxAttempts then
      (task, out.result, out.err, [task.attempt])
    else if ! shouldRetry out.result out.err policy then
      (task, out.result, out.err, [task.attempt])
    else
      let t2 := task.resetForRetry.markRunning
      let rec4 := executeWithRetryLoop exec policy maxAttempts fuel (idx + 1) t2
      (rec4.1, rec4.2.1, rec4.2.2.1, task.attempt :: rec4.2.2.2)

/-- Fuel sufficient for the loop: each retry raises `task.attempt` by one
and requires `task.attempt < maxAttempts`, so the loop executes at most
`maxAttempts - task.attempt` more iterations after the first. -/
def retryFuel (task : Task) (maxAttempts : Int) : Nat :=
  (maxAttempts - task.attempt).toNat + 1

/-- `Worker.executeWithRetry`. -/
def executeWithRetry (exec : Nat → ExecOutcome) (policy : Option RetryPolicy)
    (task : Task) :
    Task × Option ExecutionResult × Option String × List Int :=
  executeWithRetryLoop exec policy (effMaxAttempts policy)
    (retryFuel task (effMaxAttempts policy)) 0 task

/-- `mq.TaskCompletedPayload` (the fields `publishCompletion` fills). -/
structure TaskCompletedPayload where
  taskId : String
  runId : String
  stepId : String
  status : String
  error : String
  attempt : Int
deriving Repr

/-- String form of a `domain.TaskStatus` constant. -/
def taskStatusString : TaskStatus → String
  | .queued => "QUEUED"
  | .running => "RUNNING"
  | .succeeded => "SUCCEEDED"
  | .failed => "FAILED"

/-- Completion handling of `processTask` (the code from step 6 of the Go
function on), over the values `executeWithRetry` returned: success marks
the task SUCCEEDED and publishes an empty error, anything else computes
`errMsg` (the infra error if present, else the logical one), marks the
task FAILED and publishes it. The nil-result/nil-error pair is the
dereference the Go code would crash on (the fuelled loop never yields
it). -/
def finishTask (t2 : Task) (result : Option ExecutionResult)
    (execErr : Option String) (trace : List Int) :
    Except String (Task × TaskCompletedPayload × List Int) :=
  match execErr, result with
  | none, some r =>
    if r.error = "" then
      let t3 := t2.markSucceeded r.outputs
      .ok (t3, ⟨t3.id, t3.runId, t3.stepId, taskStatusString t3.status,
                "", t3.attempt⟩, trace)
    else
      let t3 := t2.markFailed r.error
      .ok (t3, ⟨t3.id, t3.runId, t3.stepId, taskStatusString t3.status,
                r.error, t3.attempt⟩, trace)
  | some e, _ =>
    let t3 := t2.markFailed e
    .ok (t3, ⟨t3.id, t3.runId, t3.stepId, taskStatusString t3.status,
              e, t3.attempt⟩, trace)
  | none, none => .error "nil result dereference"

/-- `Worker.processTask` from the status check on: a non-QUEUED task is
rejected (`ErrTaskNotQueued`); otherwise the task is marked running,
executed with retry, and the completion is handled by `finishTask`. -/
def processTask (exec : Nat → ExecOutcome) (policy : Option RetryPolicy)
    (task : Task) :
    Except String (Task × TaskCompletedPayload × List Int) :=
  if task.status ≠ TaskStatus.queued then .error "task is not in QUEUED status"
  else
    let rr := executeWithRetry exec policy task.markRunning
    finishTask rr.1 rr.2.1 rr.2.2.1 rr.2.2.2

/-- Error string of an outcome as `processTask` computes `errMsg`. -/
def outcomeErrMsg : ExecOutcome → String
  | .infra m => m
  | .res r => r.error

/-- A sample retry policy: three attempts, retry on 503 only. -/
def c5policy : RetryPolicy :=
  { maxAttempts := 3
    backoff := "exponential"
    initialDelayMs := 100
    maxDelayMs := 1000
    onStatus := [503] }

/-- A sample execution history: a 503 logical failure, then success. -/
def c5exec : Nat → ExecOutcome
  | 0 => .res { outputs := some [("status_code", Json.num 503),
                                 ("body", Json.str "busy")]
                error := "HTTP 503: busy" }
  | _ => .res { outputs := some [("status_code", Json.num 200),
                                 ("body", Json.str "ok")]
                error := "" }

/-- A freshly queued sample task. -/
def c5task : Task :=
  { id := "t1"
    runId := "r1"
    stepId := "fetch"
    name := "fetch"
    type := "http"
    attempt := 0
    status := .queued
    payload := []
    outputs := none
    error := "" }

/-! ## Orchestrator run state and task-completion handling
(`orchestrator/handlers.go`, `RunState` in the orchestrator package) -/

/-- Insertion into a Go `map[string]bool` used as a set. -/
def insertSet (xs : List String) (x : String) : List String :=
  if xs.contains x then xs else xs ++ [x]

/-- Go `delete` on a `map[string]bool` used as a set. -/
def removeSet (xs : List String) (x : String) : List String :=
  xs.filter (fun y => y ≠ x)

/-- Go `fmt.Sprintf("%v", slice)` for a string slice: bracketed,
space-separated. -/
def goStringSlice (xs : List String) : String :=
  "[" ++ String.intercalate " " xs ++ "]"

/-- `orchestrator.RunState` (the mutable in-memory state of one run; the
repositories and the mutex are irrelevant to the state transitions). -/
structure RunState where
  run : Run
  dag : DAG
  ctx : Context
  completed : List String
  running : List String
  failed : List String
  tasks : List (String × Task)

/-- `RunState.MarkStepRunning`. -/
def RunState.markStepRunning (s : RunState) (stepID : String) (task : Task) :
    RunState :=
  { s with running := insertSet s.running stepID,
           tasks := setAssoc s.tasks stepID task }

/-- `RunState.MarkStepCompleted`: leaves `running`, enters `completed`,
feeds the outputs into the render context with status SUCCEEDED. -/
def RunState.markStepCompleted (s : RunState) (stepID : String)
    (outputs : Option JsonMap) : RunState :=
  { s with running := removeSet s.running stepID,
           completed := insertSet s.completed stepID,
           ctx := addStepResult s.ctx stepID outputs "SUCCEEDED" }

/-- `RunState.MarkStepFailed`: leaves `running`, enters `failed`, feeds a
nil-outputs FAILED result into the render context. -/
def RunState.markStepFailed (s : RunState) (stepID : String)
    (errMsg : String) : RunState :=
  { s with running := removeSet s.running stepID,
           failed := insertSet s.failed stepID,
           ctx := addStepResult s.ctx stepID none "FAILED" }

/-- `RunState.GetReadySteps`: `GetReadyNodes` on the DAG; the completed
set is mutated in place (joins get absorbed), so the state comes back
too. -/
def RunState.getReadySteps (s : RunState) : List Node × RunState :=
  let r := getReadyNodes s.dag s.completed s.running
  (r.1, { s with completed := r.2 })

/-- `RunState.IsComplete`: every executable (non-join) node is completed
or failed. -/
def RunState.isComplete (s : RunState) : Bool :=
  (getExecutableNodes s.dag).all
    (fun n => s.completed.contains n.id || s.failed.contains n.id)

/-- `RunState.HasFailed`. -/
def RunState.hasFailed (s : RunState) : Bool :=
  decide (0 < s.failed.length)

/-- `Orchestrator.completeRun`: marks the run SUCCEEDED, or FAILED with
the Go-formatted list of failed step ids. -/
def completeRun (s : RunState) (success : Bool) : RunState :=
  if success then { s with run := s.run.markSucceeded }
  else
    { s with run :=
        s.run.markFailed ("steps failed: " ++ goStringSlice s.failed) }

/-- `Orchestrator.dispatchStep`, parameterized by the template engine
`texec`, the condition evaluator `cond` and the uuid supply `newTaskId`:
joins are marked completed with nil outputs; a render or condition error
leaves the state as is (the caller only logs it); a false condition marks
the step completed with `\x7b"skipped": true\x7d`; otherwise a QUEUED
attempt-0 task is created and the step marked running. -/
def dispatchStep (texec : String → Context → Except String String)
    (cond : String → Context → Except String Bool)
    (newTaskId : String → String) (s : RunState) (node : Node) :
    RunState × Option Task :=
  if node.isJoin then
    (s.markStepCompleted node.id none, none)
  else
    match node.step with
    | none => (s, none)
    | some step =>
      match renderConfig texec step.config s.ctx with
      | .error _ => (s, none)
      | .ok config =>
        let create : RunState × Option Task :=
          let task : Task :=
            { id := newTaskId node.id, runId := s.run.id, stepId := node.id,
              name := step.name, type := step.type, attempt := 0,
              status := TaskStatus.queued, payload := config,
              outputs := none, error := "" }
          (s.markStepRunning node.id task, some task)
        if step.condition ≠ "" then
          match cond step.condition s.ctx with
          | .error _ => (s, none)
          | .ok false =>
              (s.markStepCompleted node.id
                (some [("skipped", Json.bool true)]), none)
          | .ok true => create
        else create

/-- One iteration of the `dispatchReadySteps` loop, also collecting the
created task. -/
def dispatchFoldStep (texec : String → Context → Except String String)
    (cond : String → Context → Except String Bool)
    (newTaskId : String → String) (acc : RunState × List Task)
    (node : Node) : RunState × List Task :=
  let d := dispatchStep texec cond newTaskId acc.1 node
  (d.1, acc.2 ++ (match d.2 with | some t => [t] | none => []))

/-- `Orchestrator.dispatchReadySteps`: dispatches every ready node,
collecting the created tasks. -/
def dispatchReadySteps (texec : String → Context → Except String String)
    (cond : String → Context → Except String Bool)
    (newTaskId : String → String) (s : RunState) : RunState × List Task :=
  let r := s.getReadySteps
  r.1.foldl (dispatchFoldStep texec cond newTaskId) (r.2, [])

/-- Step 3 of `processTaskCompleted`: a SUCCEEDED payload marks the step
completed with the task's reloaded outputs, anything else marks it
failed with the payload's error. -/
def applyCompletion (s : RunState) (payload : TaskCompletedPayload)
    (outs : Option JsonMap) : RunState :=
  if payload.status = "SUCCEEDED"
  then s.markStepCompleted payload.stepId outs
  else s.markStepFailed payload.stepId payload.error

/-- `Orchestrator.processTaskCompleted` on an active run state (steps 3-5
of the Go function; the task's outputs are reloaded from the DB, here the
`outs` parameter): apply the completion to the step, then finalize FAILED
on any failure, finalize SUCCEEDED when complete, else dispatch the newly
ready steps. -/
def processTaskCompleted (texec : String → Context → Except String String)
    (cond : String → Context → Except String Bool)
    (newTaskId : String → String) (s : RunState)
    (payload : TaskCompletedPayload) (outs : Option JsonMap) :
    RunState × List Task :=
  let s1 := applyCompletion s payload outs
  if s1.hasFailed then (completeRun s1 false, [])
  else if s1.isComplete then (completeRun s1 true, [])
  else dispatchReadySteps texec cond newTaskId s1

/-- A linear three-step flow `A → B → C`. -/
def linearSpec : FlowSpec :=
  { steps := [simpleStep "A" "http" [], simpleStep "B" "http" ["A"],
              simpleStep "C" "http" ["B"]],
    defaults := none }

/-- The DAG of `linearSpec` (extracted total; `buildDAG` succeeds). -/
def linearDag : DAG :=
  match buildDAG linearSpec with
  | .ok d => d
  | .error _ => { nodes := [], rootNodes := [], order := [] }

/-- A run state for `linearSpec` in which `A` has been dispatched. -/
def c2state : RunState :=
  { run := { id := "r1", flowId := "f1", version := 1,
             status := RunStatus.running, inputs := [],
             idempotencyKey := "", isSandbox := false, error := "" }
    dag := linearDag
    ctx := NewContext []
    completed := []
    running := ["A"]
    failed := []
    tasks := [] }

/-- The `task.completed` event for `A` failing with "boom". -/
def c2failPayload : TaskCompletedPayload :=
  { taskId := "t1", runId := "r1", stepId := "A", status := "FAILED",
    error := "boom", attempt := 1 }

/-- The `task.completed` event for `A` succeeding. -/
def c2okPayload : TaskCompletedPayload :=
  { taskId := "t1", runId := "r1", stepId := "A", status := "SUCCEEDED",
    error := "", attempt := 1 }

/-- A condition evaluator that always says run. -/
def trueCond : String → Context → Except String Bool :=
  fun _ _ => .ok true

/-- A deterministic task-id supply. -/
def mkTaskId (stepId : String) : String :=
  "task-" ++ stepId

/-- One iteration of `RunState.RestoreFromTasks`: record the task, then
reconstruct from its status — SUCCEEDED enters `completed` and feeds its
outputs into the context, FAILED enters `failed` with nil outputs,
RUNNING enters `running`, QUEUED does nothing. -/
def restoreStep (s : RunState) (t : Task) : RunState :=
  let s0 := { s with tasks := setAssoc s.tasks t.stepId t }
  match t.status with
  | .succeeded =>
      { s0 with completed := insertSet s0.completed t.stepId,
                ctx := addStepResult s0.ctx t.stepId t.outputs "SUCCEEDED" }
  | .failed =>
      { s0 with failed := insertSet s0.failed t.stepId,
                ctx := addStepResult s0.ctx t.stepId none "FAILED" }
  | .running =>
      { s0 with running := insertSet s0.running t.stepId }
  | .queued => s0

/-- `RunState.RestoreFromTasks`. -/
def restoreFromTasks (s : RunState) (ts : List Task) : RunState :=
  ts.foldl restoreStep s

/-- Claim-side definition (C8, from the spec's words): drive one task's
final status as the ordinary transition on the state — SUCCEEDED via
`MarkStepCompleted` with the task's outputs, FAILED via `MarkStepFailed`,
RUNNING via `MarkStepRunning`, QUEUED ignored. -/
def driveTaskTransition (s : RunState) (t : Task) : RunState :=
  match t.status with
  | .succeeded => s.markStepCompleted t.stepId t.outputs
  | .failed => s.markStepFailed t.stepId t.error
  | .running => s.markStepRunning t.stepId t
  | .queued => s

/-- Claim-side definition (C8): drive all the tasks' transitions from
scratch in order. -/
def driveTasks (s : RunState) (ts : List Task) : RunState :=
  ts.foldl driveTaskTransition s

/-- Agreement of two run states on everything the claim compares (the
`tasks` map is outside the comparison). -/
def stateAgrees (s1 s2 : RunState) : Prop :=
  s1.run = s2.run ∧ s1.dag = s2.dag ∧ s1.ctx = s2.ctx ∧
  s1.completed = s2.completed ∧ s1.running = s2.running ∧
  s1.failed = s2.failed

/-- A fresh run state for `linearSpec` (nothing dispatched yet). -/
def c8state : RunState :=
  { run := { id := "r1", flowId := "f1", version := 1,
             status := RunStatus.running, inputs := [],
             idempotencyKey := "", isSandbox := false, error := "" }
    dag := linearDag
    ctx := NewContext []
    completed := []
    running := []
    failed := []
    tasks := [] }

/-- Persisted tasks of a partially executed linear run: `A` succeeded
with outputs, `B` still running. -/
def c8tasks : List Task :=
  [{ id := "t1", runId := "r1", stepId := "A", name := "A", type := "http",
     attempt := 1, status := TaskStatus.succeeded, payload := [],
     outputs := some [("x", Json.num 1)], error := "" },
   { id := "t2", runId := "r1", stepId := "B", name := "B", type := "http",
     attempt := 1, status := TaskStatus.running, payload := [],
     outputs := none, error := "" }]

/-! ## Scheduler (`internal/scheduler/scheduler.go`) -/

/-- `domain.Schedule` (the fields `processSchedule` reads; times are Unix
seconds). -/
structure Schedule where
  id : String
  flowId : String
  nextDueAtUnix : Int
  inputs : JsonMap
  lastRunId : Option String
  lastRunAtUnix : Option Int

/-- `Schedule.RecordRun`. -/
def Schedule.recordRun (s : Schedule) (runId : String) (nowUnix nextDue : Int) :
    Schedule :=
  { s with
    lastRunId := some runId
    lastRunAtUnix := some nowUnix
    nextDueAtUnix := nextDue }

/-- `runRepo.GetByIdempotencyKey`: first run with the `(flow_id, key)`
pair (the store enforces uniqueness of that pair). -/
def getByIdempotencyKey (runs : List Run) (flowId key : String) :
    Option Run :=
  runs.find? (fun r => r.flowId == flowId && r.idempotencyKey == key)

/-- The PENDING run `processSchedule` inserts for a due schedule. -/
def schedRun (sched : Schedule) (newRunId : String) (ver : Int) : Run :=
  { id := newRunId
    flowId := sched.flowId
    version := ver
    status := .pending
    inputs := sched.inputs
    idempotencyKey := sched.id ++ "_" ++ toString sched.nextDueAtUnix
    isSandbox := false
    error := "" }

/-- `scheduler.processSchedule`, over a pure store state: the latest
version per flow, the stored runs, the schedule, the current time, the
fresh uuid for a potential new run, and the `CalculateNextDue` result
(`none` models a malformed cron — schedule row then left untouched).
Returns (runs, schedule row, run-created flag, run id used). -/
def processSchedule (latest : List (String × Int)) (runs : List Run)
    (sched : Schedule) (nowUnix : Int) (newRunId : String)
    (calcNext : Option Int) :
    List Run × Schedule × Bool × Option String :=
  match latest.lookup sched.flowId with
  | none => (runs, sched, false, none)
  | some ver =>
      let idempKey := sched.id ++ "_" ++ toString sched.nextDueAtUnix
      match getByIdempotencyKey runs sched.flowId idempKey with
      | some existing =>
          match calcNext with
          | none => (runs, sched, false, some existing.id)
          | some nd =>
              (runs, sched.recordRun existing.id nowUnix nd, false,
                some existing.id)
      | none =>
          let run : Run := schedRun sched newRunId ver
          match calcNext with
          | none => (runs ++ [run], sched, true, some newRunId)
          | some nd =>
              (runs ++ [run], sched.recordRun newRunId nowUnix nd, true,
                some newRunId)

/-! ## Theorems -/

/-- Clipping the doubling loop at `maxDelay` computes exactly
`min (d * 2^k) maxDelay` for positive `d`. -/
theorem expBackoffLoop_clip (k : Nat) (d m : Int) (hd : 0 < d) :
    min (expBackoffLoop k d m) m = min (d * 2 ^ k) m := by
  induction k generalizing d with
  | zero => simp [expBackoffLoop]
  | succ k ih =>
      simp only [expBackoffLoop]
      by_cases h : d * 2 > m
      · simp only [h, if_pos]
        have h2k : (1 : Int) ≤ 2 ^ k := by exact_mod_cast Nat.one_le_two_pow
        have : d * 2 ≤ d * 2 ^ (k + 1) := by
          have : d * 2 * 1 ≤ d * 2 * 2 ^ k :=
            mul_le_mul_of_nonneg_left h2k (by positivity)
          calc d * 2 = d * 2 * 1 := by ring
            _ ≤ d * 2 * 2 ^ k := this
            _ = d * 2 ^ (k + 1) := by ring
        have : m < d * 2 ^ (k + 1) := lt_of_lt_of_le h this
        simp [min_eq_left, le_of_lt this, min_self]
      · simp only [h, if_neg, not_false_iff]
        have := ih (d * 2) (by positivity)
        rw [this]
        congr 1
        ring

/-- `effInitialDelay` is always positive. -/
theorem effInitialDelay_pos (p : RetryPolicy) : 0 < effInitialDelay p := by
  simp only [effInitialDelay]
  split
  · unfold second; norm_num
  · omega

/-- Turning the trailing `if delay > maxDelay` clip of `calculateBackoff`
into a `min`. -/
theorem clip_eq_min (x m : Int) : (if x > m then m else x) = min x m := by
  rcases le_or_lt x m with h | h
  · simp [not_lt.mpr h, min_eq_left h]
  · simp [h, min_eq_right (le_of_lt h)]

/-- C6 counterexample: under `"fixed"` backoff with `initial_delay_ms`
60000 and defaulted `max_delay_ms`, `calculateBackoff` returns 30 s, not
the unchanged 60 s the claim requires for fixed backoff. -/
theorem c6_fixed_clipped_counterexample :
    calculateBackoff 1 (some fixedPolicy60) = 30 * second ∧
    (30 * second : Int) ≠ 60000 * millisecond := by
  constructor
  · decide
  · decide

/-- C6 (amended): `calculateBackoff` equals `backoffSpec` for every
attempt ≥ 1 — nil policy gives 1 s; exponential gives the initial delay
doubled `attempt − 1` times clipped at the max delay; fixed or unknown
backoff gives the initial delay clipped at the max delay (the claim said
"unchanged"; the code clips), with the 1 s / 30 s defaults for
non-positive `initial_delay_ms` / `max_delay_ms`.  Moreover, for
exponential with initial = 1 s and max = 10 s the delays for attempts
1..6 are exactly 1, 2, 4, 8, 10, 10 seconds. -/
theorem c6_calculateBackoff_spec (attempt : Int) (policy : Option RetryPolicy)
    (_h1 : 1 ≤ attempt) :
    calculateBackoff attempt policy = backoffSpec attempt policy ∧
    ([1, 2, 3, 4, 5, 6].map
        (fun a => calculateBackoff a (some expPolicy)))
      = [second, 2 * second, 4 * second, 8 * second, 10 * second, 10 * second] := by
  refine ⟨?_, by decide⟩
  match policy with
  | none => rfl
  | some p =>
      simp only [calculateBackoff, backoffSpec]
      by_cases hb : p.backoff = "exponential"
      · simp only [hb, if_pos rfl]
        rw [clip_eq_min]
        exact expBackoffLoop_clip _ _ _ (effInitialDelay_pos p)
      · simp only [hb, if_neg, ite_false]
        rw [clip_eq_min]

/-- C6 witness: the amended characterization instantiated at attempt 3
with the spec's exponential 1 s / 10 s policy. -/
theorem c6_calculateBackoff_spec_witness :
    (1 : Int) ≤ 3 ∧
    (calculateBackoff 3 (some expPolicy) = backoffSpec 3 (some expPolicy) ∧
     ([1, 2, 3, 4, 5, 6].map
        (fun a => calculateBackoff a (some expPolicy)))
      = [second, 2 * second, 4 * second, 8 * second, 10 * second, 10 * second]) :=
  ⟨by norm_num, c6_calculateBackoff_spec 3 (some expPolicy) (by norm_num)⟩

/-- `renderValue` is the identity on values all of whose string leaves
lack the template-open marker, for every template engine. -/
theorem renderValue_plain (exec : String → Context → Except String String)
    (ctx : Context) :
    (∀ v : Json, plainJson v = true → renderValue exec v ctx = .ok v) ∧
    (∀ es : List Json, plainJsonElems es = true →
      renderElems exec es ctx = .ok es) ∧
    (∀ fs : List (String × Json), plainJsonFields fs = true →
      renderFields exec fs ctx = .ok fs) := by
  refine plainJson.mutual_induct
    (fun v => plainJson v = true → renderValue exec v ctx = .ok v)
    (fun es => plainJsonElems es = true → renderElems exec es ctx = .ok es)
    (fun fs => plainJsonFields fs = true → renderFields exec fs ctx = .ok fs)
    ?_ ?_ ?_ ?_ ?_ ?_ ?_ ?_
  · intro s h
    simp only [plainJson, Bool.not_eq_true'] at h
    simp [renderValue, render, h, Except.map]
  · intro fields ih h
    simp only [renderValue, ih h, Except.map]
  · intro elems ih h
    simp only [renderValue, ih h, Except.map]
  · intro v h1 h2 h3 _
    cases v <;> simp_all [renderValue]
  · intro _
    rfl
  · intro v rest ihv ihr h
    simp only [plainJsonElems, Bool.and_eq_true] at h
    simp only [renderElems, ihv h.1, ihr h.2]
    rfl
  · intro _
    rfl
  · intro k v rest ihv ihr h
    simp only [plainJsonFields, Bool.and_eq_true] at h
    simp only [renderFields, ihv h.1, ihr h.2]
    rfl

/-- C10: a string without the `\x7b\x7b` marker renders to itself with no
error under every template engine (no template parsing is attempted), and
`RenderConfig` maps every config whose string leaves all lack the marker
to itself. -/
theorem c10_render_no_marker_identity
    (exec : String → Context → Except String String) (s : String)
    (ctx : Context) (config : JsonMap)
    (hs : containsTemplateOpen s = false)
    (hc : plainJsonFields config = true) :
    render exec s ctx = .ok s ∧ renderConfig exec config ctx = .ok config :=
  ⟨by simp [render, hs], (renderValue_plain exec ctx).2.2 config hc⟩

/-- C10 witness: the identity behaviour at a concrete marker-free string
and config, under the failing engine. -/
theorem c10_render_no_marker_identity_witness :
    (containsTemplateOpen "hello world" = false ∧
     plainJsonFields plainCfg = true) ∧
    (render failingExec "hello world" (NewContext []) = .ok "hello world" ∧
     renderConfig failingExec plainCfg (NewContext []) = .ok plainCfg) :=
  ⟨⟨by decide, by decide⟩,
    c10_render_no_marker_identity failingExec "hello world" (NewContext [])
      plainCfg (by decide) (by decide)⟩

/-- C9 counterexample: the code JSON-parses the body even though the
response Content-Type is `text/plain` — the claim requires the raw
string `"123"` there, but `buildOutputs` yields the JSON number `123`. -/
theorem c9_contentType_ignored_counterexample :
    ((buildOutputs plainTextNumResponse).lookup "body" =
      some (Json.num 123)) ∧
    Json.num 123 ≠ Json.str "123" := by
  constructor
  · rfl
  · intro h
    exact Json.noConfusion h

/-- C9 (amended): for every HTTP response, `Execute` returns outputs
holding exactly the keys `status_code`, `headers` and `body`, where the
body is JSON-decoded with fallback to the raw string regardless of the
response Content-Type (and the body is read in full — the code imposes no
10 MiB limit); a logical error is attached exactly for status codes
≥ 400, equal to `"HTTP \x7bcode\x7d: \x7bbody truncated to 200\x7d"`,
alongside those same outputs. -/
theorem c9_httpExecute_outputs (resp : HttpResponse) :
    let r := httpExecuteResponse resp
    r.outputs = some (buildOutputs resp) ∧
    (buildOutputs resp).map Prod.fst = ["status_code", "headers", "body"] ∧
    (buildOutputs resp).lookup "status_code" = some (Json.num resp.statusCode) ∧
    (buildOutputs resp).lookup "headers" =
      some (Json.obj (resp.headers.map (fun kv => (kv.1, Json.str kv.2)))) ∧
    (buildOutputs resp).lookup "body" =
      some (match jsonUnmarshal resp.body with
            | some v => v
            | none => Json.str resp.body) ∧
    (r.error ≠ "" ↔ resp.statusCode ≥ 400) ∧
    (resp.statusCode ≥ 400 →
      r.error = "HTTP " ++ toString resp.statusCode ++ ": " ++ truncate resp.body 200) := by
  have hne : ∀ s : String, ("HTTP " ++ s) ≠ "" := by
    intro s hEq
    have hl := congrArg String.length hEq
    rw [String.length_append] at hl
    have h5 : ("HTTP " : String).length = 5 := rfl
    have h0 : ("" : String).length = 0 := rfl
    omega
  by_cases h : resp.statusCode ≥ 400
  · refine ⟨?_, ?_, ?_, ?_, ?_, ⟨fun _ => h, fun _ => ?_⟩, ?_⟩ <;>
      simp [httpExecuteResponse, buildOutputs, h, List.lookup, hne,
        String.append_assoc]
  · refine ⟨?_, ?_, ?_, ?_, ?_, ?_, ?_⟩ <;>
      simp [httpExecuteResponse, buildOutputs, h, List.lookup]

/-- C9 witness: the amended characterization evaluated on a concrete 503
response. -/
theorem c9_httpExecute_outputs_witness :
    (let r := httpExecuteResponse unavailableResponse
     r.outputs = some (buildOutputs unavailableResponse) ∧
     (buildOutputs unavailableResponse).map Prod.fst =
       ["status_code", "headers", "body"] ∧
     (buildOutputs unavailableResponse).lookup "status_code" =
       some (Json.num 503) ∧
     (buildOutputs unavailableResponse).lookup "headers" =
       some (Json.obj [("Content-Type", Json.str "text/plain")]) ∧
     (buildOutputs unavailableResponse).lookup "body" =
       some (Json.str "busy") ∧
     (r.error ≠ "" ↔ (503 : Int) ≥ 400) ∧
     ((503 : Int) ≥ 400 → r.error = "HTTP 503: busy")) := by
  have h := c9_httpExecute_outputs unavailableResponse
  simpa [unavailableResponse, jsonUnmarshal, truncate, allDigits] using h

/-- Key-set effect of Go map assignment. -/
theorem mem_keys_setAssoc {α : Type} (ns : List (String × α)) (k : String)
    (v : α) (x : String) :
    x ∈ keysOf (setAssoc ns k v) ↔ x = k ∨ x ∈ keysOf ns := by
  induction ns with
  | nil => simp [setAssoc, keysOf]
  | cons p rest ih =>
      simp only [setAssoc]
      by_cases h : p.1 = k
      · subst h
        simp [keysOf]
      · simp only [h, if_false, keysOf, List.map_cons, List.mem_cons] at *
        rw [ih]
        tauto

/-- `modifyNode` leaves the key list untouched. -/
theorem keys_modifyNode (ns : NodeMap) (k : String) (f : Node → Node) :
    keysOf (modifyNode ns k f) = keysOf ns := by
  induction ns with
  | nil => rfl
  | cons p rest ih =>
      simp only [modifyNode, keysOf, List.map_cons] at *
      rw [← ih]
      by_cases h : p.1 = k <;> simp [h, modifyNode]

/-- `addEdge` leaves the key list untouched. -/
theorem keys_addEdge (ns : NodeMap) (a b : String) :
    keysOf (addEdge ns a b) = keysOf ns := by
  unfold addEdge
  cases hlb : ns.lookup b with
  | none => simp [hlb]
  | some toN =>
      simp only [hlb]
      split
      · rfl
      · simp [keys_modifyNode]

/-- Key-set effect of folding a per-element insertion over a list. -/
theorem mem_keys_foldl {α : Type} (L : List α) (F : NodeMap → α → NodeMap)
    (S : α → String → Prop)
    (hF : ∀ ns a x, x ∈ keysOf (F ns a) ↔ S a x ∨ x ∈ keysOf ns)
    (ns : NodeMap) (x : String) :
    x ∈ keysOf (L.foldl F ns) ↔ (∃ a ∈ L, S a x) ∨ x ∈ keysOf ns := by
  induction L generalizing ns with
  | nil => simp
  | cons a rest ih =>
      simp only [List.foldl_cons]
      rw [ih, hF]
      simp only [List.mem_cons]
      constructor
      · rintro (⟨b, hb, hS⟩ | hS | hmem)
        · exact Or.inl ⟨b, Or.inr hb, hS⟩
        · exact Or.inl ⟨a, Or.inl rfl, hS⟩
        · exact Or.inr hmem
      · rintro (⟨b, hb | hb, hS⟩ | hmem)
        · subst hb; exact Or.inr (Or.inl hS)
        · exact Or.inl ⟨b, hb, hS⟩
        · exact Or.inr (Or.inr hmem)

/-- Key-list preservation of a fold whose function preserves keys. -/
theorem keys_foldl_pres {α : Type} (L : List α) (F : NodeMap → α → NodeMap)
    (hF : ∀ ns a, keysOf (F ns a) = keysOf ns) (ns : NodeMap) :
    keysOf (L.foldl F ns) = keysOf ns := by
  induction L generalizing ns with
  | nil => rfl
  | cons a rest ih => simp only [List.foldl_cons]; rw [ih, hF]

/-- Key-set effect of `addParallelNodes`: the fully-qualified branch-step
ids and the join id. -/
theorem mem_keys_addParallelNodes (ns : NodeMap) (p : StepDef) (x : String) :
    x ∈ keysOf (addParallelNodes ns p) ↔
      (x = p.id ++ ".join" ∨
        ∃ b ∈ p.branches, ∃ bs ∈ b.steps,
          x = p.id ++ "." ++ b.id ++ "." ++ bs.id) ∨
      x ∈ keysOf ns := by
  simp only [addParallelNodes]
  rw [mem_keys_setAssoc]
  rw [mem_keys_foldl _ _
    (fun b x => ∃ bs ∈ b.steps, x = p.id ++ "." ++ b.id ++ "." ++ bs.id)]
  case hF =>
    intro ns' b y
    rw [mem_keys_foldl _ _
      (fun bs y => y = p.id ++ "." ++ b.id ++ "." ++ bs.id)]
    case hF =>
      intro ns'' bs z
      rw [mem_keys_setAssoc]
  constructor
  · rintro (hj | h)
    · exact Or.inl (Or.inl hj)
    · rcases h with (⟨b, hb, bs, hbs, rfl⟩ | hm)
      · exact Or.inl (Or.inr ⟨b, hb, bs, hbs, rfl⟩)
      · exact Or.inr hm
  · rintro ((hj | ⟨b, hb, bs, hbs, rfl⟩) | hm)
    · exact Or.inl hj
    · exact Or.inr (Or.inl ⟨b, hb, bs, hbs, rfl⟩)
    · exact Or.inr (Or.inr hm)

/-- Key-set effect of `addNode`: exactly the claim's per-step ids. -/
theorem mem_keys_addNodeStep (ns : NodeMap) (st : StepDef) (x : String) :
    x ∈ keysOf (addNodeStep ns st) ↔
      x ∈ stepNodeIds st ∨ x ∈ keysOf ns := by
  unfold addNodeStep stepNodeIds
  by_cases h : st.type = "parallel"
  · rw [if_pos h, if_pos h, mem_keys_addParallelNodes, mem_keys_setAssoc]
    simp only [List.mem_append, List.mem_flatMap, List.mem_map, List.mem_cons,
      List.mem_singleton, List.cons_append, List.nil_append]
    constructor
    · rintro ((hj | ⟨b, hb, bs, hbs, rfl⟩) | (rfl | hmem))
      · exact Or.inl (Or.inr (Or.inr (by simpa using hj)))
      · exact Or.inl (Or.inr (Or.inl ⟨b, hb, ⟨bs, hbs, rfl⟩⟩))
      · exact Or.inl (Or.inl rfl)
      · exact Or.inr hmem
    · rintro ((rfl | (⟨b, hb, bs, hbs, rfl⟩ | hj)) | hmem)
      · exact Or.inr (Or.inl rfl)
      · exact Or.inl (Or.inr ⟨b, hb, bs, hbs, rfl⟩)
      · exact Or.inl (Or.inl (by simpa using hj))
      · exact Or.inr (Or.inr hmem)
  · rw [if_neg h, if_neg h, mem_keys_setAssoc]
    simp only [List.mem_append, List.mem_cons, List.not_mem_nil,
      List.mem_singleton, or_false, List.cons_append, List.nil_append]

/-- The key set after the node-creation pass over all steps. -/
theorem mem_keys_pass1 (steps : List StepDef) (x : String) :
    x ∈ keysOf (steps.foldl addNodeStep []) ↔
      ∃ st ∈ steps, x ∈ stepNodeIds st := by
  rw [mem_keys_foldl _ _ (fun st x => x ∈ stepNodeIds st)
    mem_keys_addNodeStep]
  simp [keysOf]

/-- `linkBranchSteps` preserves the key list. -/
theorem keys_linkBranchSteps (pId brId joinId : String)
    (L : List StepDef) (ns : NodeMap) (prev : Option String) :
    keysOf (linkBranchSteps pId brId joinId ns prev L) = keysOf ns := by
  induction L generalizing ns prev with
  | nil => rfl
  | cons bstep rest ih =>
      simp only [linkBranchSteps]
      rw [ih]
      have hdeps : ∀ (ns' : NodeMap),
          keysOf (bstep.dependsOn.foldl (fun ns dep =>
            let localDep := pId ++ "." ++ brId ++ "." ++ dep
            if (ns.lookup localDep).isSome then
              addEdge ns localDep (pId ++ "." ++ brId ++ "." ++ bstep.id)
            else if (ns.lookup dep).isSome then
              addEdge ns dep (pId ++ "." ++ brId ++ "." ++ bstep.id)
            else ns) ns') = keysOf ns' := by
        intro ns'
        apply keys_foldl_pres
        intro ns'' dep
        by_cases h1 : ((ns''.lookup (pId ++ "." ++ brId ++ "." ++ dep)).isSome : Bool)
        · simp [h1, keys_addEdge]
        · by_cases h2 : ((ns''.lookup dep).isSome : Bool) <;>
            simp [h1, h2, keys_addEdge]
      by_cases hrest : rest.isEmpty <;>
        cases prev <;>
          simp [hrest, hdeps, keys_addEdge]

/-- `linkParallelDependencies` preserves the key list. -/
theorem keys_linkParallelDependencies (ns : NodeMap) (p : StepDef) :
    keysOf (linkParallelDependencies ns p) = keysOf ns := by
  unfold linkParallelDependencies
  apply keys_foldl_pres
  intro ns' b
  exact keys_linkBranchSteps _ _ _ _ _ _

/-- Bind of a successful `Except` computation. -/
theorem exc_bind_ok {ε α β : Type} (x : α) (f : α → Except ε β) :
    (Except.ok x >>= f) = f x := rfl

/-- Bind of a failed `Except` computation. -/
theorem exc_bind_err {ε α β : Type} (e : ε) (f : α → Except ε β) :
    ((Except.error e : Except ε α) >>= f) = Except.error e := rfl

/-- Key preservation through the flow-level `depends_on` resolution
loop of `linkDependencies`, when it succeeds. -/
theorem keys_linkDeps_fold (deps : List String) (sid : String)
    (ns ns' : NodeMap)
    (h : deps.foldlM (fun ns dep =>
      if (ns.lookup dep).isSome then Except.ok (addEdge ns dep sid)
      else if (ns.lookup (dep ++ ".join")).isSome then
        Except.ok (addEdge ns (dep ++ ".join") sid)
      else Except.error (BuildError.missingDependency sid dep)) ns
        = .ok ns') :
    keysOf ns' = keysOf ns := by
  induction deps generalizing ns with
  | nil =>
      simp only [List.foldlM_nil, pure] at h
      cases h
      rfl
  | cons dep rest ih =>
      simp only [List.foldlM_cons] at h
      split at h
      · simp only [exc_bind_ok] at h
        rw [ih _ h, keys_addEdge]
      · split at h
        · simp only [exc_bind_ok] at h
          rw [ih _ h, keys_addEdge]
        · simp only [exc_bind_err] at h
          cases h

/-- `linkDependencies` preserves the key list when it succeeds. -/
theorem keys_linkDependencies (ns ns' : NodeMap) (st : StepDef)
    (h : linkDependencies ns st = .ok ns') : keysOf ns' = keysOf ns := by
  unfold linkDependencies at h
  cases hf : st.dependsOn.foldlM (fun ns dep =>
      if (ns.lookup dep).isSome then Except.ok (addEdge ns dep st.id)
      else if (ns.lookup (dep ++ ".join")).isSome then
        Except.ok (addEdge ns (dep ++ ".join") st.id)
      else Except.error (BuildError.missingDependency st.id dep)) ns with
  | error e =>
      rw [hf] at h
      simp only [exc_bind_err] at h
      cases h
  | ok nsm =>
      rw [hf] at h
      simp only [exc_bind_ok] at h
      split at h
      · cases h
        rw [keys_linkParallelDependencies, keys_linkDeps_fold _ _ _ _ hf]
      · cases h
        rw [keys_linkDeps_fold _ _ _ _ hf]

/-- The whole linking pass preserves the key list when it succeeds. -/
theorem keys_link_pass (steps : List StepDef) (ns ns' : NodeMap)
    (h : steps.foldlM (fun ns st => linkDependencies ns st) ns = .ok ns') :
    keysOf ns' = keysOf ns := by
  induction steps generalizing ns with
  | nil =>
      simp only [List.foldlM_nil, pure] at h
      cases h
      rfl
  | cons st rest ih =>
      simp only [List.foldlM_cons] at h
      cases hl : linkDependencies ns st with
      | error e =>
          rw [hl] at h
          simp only [exc_bind_err] at h
          cases h
      | ok ns1 =>
          rw [hl] at h
          simp only [exc_bind_ok] at h
          rw [ih _ h, keys_linkDependencies _ _ _ hl]

/-- C4 (amended): for every flow spec accepted by `Validate` on which
`BuildDAG` also returns without error, the node-id set of the resulting
DAG equals the union of the top-level step ids, the fully-qualified
`\x7bparallel\x7d.\x7bbranch\x7d.\x7bstep\x7d` ids of the (top-level)
parallel steps' branch steps, and one `\x7bparallel\x7d.join` id per
top-level parallel step. (The claim's further assertion that `BuildDAG`
always returns without error after validation is false — see the
counterexample — because `Validate` has no cycle check and `BuildDAG`'s
Kahn sort is the only one.) -/
theorem c4_buildDAG_nodeSet (spec : FlowSpec)
    (_hv : validate (some spec) = .ok ()) (dag : DAG)
    (hb : buildDAG spec = .ok dag) :
    ∀ x, x ∈ keysOf dag.nodes ↔ x ∈ specNodeIds spec := by
  unfold buildDAG at hb
  cases hf : spec.steps.foldlM (fun ns st => linkDependencies ns st)
      (spec.steps.foldl addNodeStep []) with
  | error e =>
      rw [hf] at hb
      simp only [exc_bind_err] at hb
      cases hb
  | ok nodes1 =>
      rw [hf] at hb
      simp only [exc_bind_ok] at hb
      cases hs : topologicalSort nodes1 (findRootNodes nodes1) with
      | error e =>
          rw [hs] at hb
          simp only [exc_bind_err] at hb
          cases hb
      | ok order =>
          rw [hs] at hb
          simp only [exc_bind_ok] at hb
          cases hb
          intro x
          show x ∈ keysOf nodes1 ↔ _
          rw [keys_link_pass _ _ _ hf, mem_keys_pass1]
          simp [specNodeIds]

/-- C4 counterexample: the two-step cycle `A ↔ B` passes `Validate`
(which has no cycle check) yet `BuildDAG` fails with the
cyclic-dependency error, refuting "for every flow spec on which Validate
succeeds, BuildDAG returns without error". -/
theorem c4_cycle_counterexample :
    validate (some cyclicSpec) = .ok () ∧
    buildDAG cyclicSpec = .error .cyclic := by
  constructor
  · rfl
  · rfl

/-- C4 witness: the spec's literal parallel scenario — validation
succeeds, `BuildDAG` succeeds, and the node-id set is exactly
`\x7bstart, parallel, parallel.branch_a.s1, parallel.branch_a.s2,
parallel.branch_b.s1, parallel.join, end\x7d`. -/
theorem c4_buildDAG_nodeSet_witness :
    validate (some parallelSampleSpec) = .ok () ∧
    ∃ dag, buildDAG parallelSampleSpec = .ok dag ∧
      ∀ x, x ∈ keysOf dag.nodes ↔ x ∈ specNodeIds parallelSampleSpec := by
  have hv : validate (some parallelSampleSpec) = .ok () := by rfl
  refine ⟨hv, ?_⟩
  cases hbd : buildDAG parallelSampleSpec with
  | error e =>
      have : (buildDAG parallelSampleSpec).isOk = true := by rfl
      rw [hbd] at this
      cases this
  | ok dag =>
      exact ⟨dag, rfl, c4_buildDAG_nodeSet parallelSampleSpec hv dag hbd⟩

/-- Entries after a map assignment: the new pair or an original one. -/
theorem mem_setAssoc {α : Type} (ns : List (String × α)) (k : String)
    (v : α) (p : String × α) (hp : p ∈ setAssoc ns k v) :
    p = (k, v) ∨ p ∈ ns := by
  induction ns with
  | nil => simpa [setAssoc] using hp
  | cons q rest ih =>
      simp only [setAssoc] at hp
      by_cases h : q.1 = k
      · rw [if_pos h] at hp
        rcases List.mem_cons.mp hp with h1 | h1
        · subst h1
          left
          rw [h]
        · exact Or.inr (List.mem_cons.mpr (Or.inr h1))
      · rw [if_neg h] at hp
        rcases List.mem_cons.mp hp with h1 | h1
        · exact Or.inr (List.mem_cons.mpr (Or.inl h1))
        · rcases ih h1 with h2 | h2
          · exact Or.inl h2
          · exact Or.inr (List.mem_cons.mpr (Or.inr h2))

/-- Key list after a map assignment: unchanged when present, appended
when fresh. -/
theorem keysOf_setAssoc {α : Type} (ns : List (String × α)) (k : String)
    (v : α) :
    keysOf (setAssoc ns k v) =
      if k ∈ keysOf ns then keysOf ns else keysOf ns ++ [k] := by
  induction ns with
  | nil => simp [setAssoc, keysOf]
  | cons q rest ih =>
      simp only [setAssoc]
      by_cases h : q.1 = k
      · rw [if_pos h]
        have : k ∈ keysOf (q :: rest) := by
          simp [keysOf, List.mem_cons, h.symm]
        rw [if_pos this]
        simp [keysOf]
      · rw [if_neg h]
        simp only [keysOf, List.map_cons] at *
        rw [ih]
        by_cases hk : k ∈ List.map Prod.fst rest
        · rw [if_pos hk, if_pos (by simp [List.mem_cons, hk])]
        · rw [if_neg hk, if_neg (by simp [List.mem_cons, hk, Ne.symm h])]
          simp

/-- `setAssoc` preserves node-map well-formedness when the stored node
carries the key as its id. -/
theorem wf_setAssoc (ns : NodeMap) (k : String) (v : Node)
    (h : wfNodes ns) (hv : v.id = k) : wfNodes (setAssoc ns k v) := by
  obtain ⟨hid, hnd⟩ := h
  constructor
  · intro p hp
    rcases mem_setAssoc ns k v p hp with rfl | hin
    · exact hv.symm
    · exact hid p hin
  · rw [keysOf_setAssoc]
    split
    · exact hnd
    · simp only [List.nodup_append, List.nodup_cons, List.not_mem_nil,
        not_false_iff, List.nodup_nil, and_true, true_and]
      constructor
      · exact hnd
      · intro x hx
        simp only [List.mem_singleton]
        intro hxk
        subst hxk
        exact absurd hx (by assumption)

/-- `modifyNode` preserves well-formedness when `f` preserves ids. -/
theorem wf_modifyNode (ns : NodeMap) (k : String) (f : Node → Node)
    (hf : ∀ n, (f n).id = n.id) (h : wfNodes ns) :
    wfNodes (modifyNode ns k f) := by
  obtain ⟨hid, hnd⟩ := h
  constructor
  · intro p hp
    simp only [modifyNode, List.mem_map] at hp
    obtain ⟨q, hq, hpq⟩ := hp
    by_cases hk : q.1 = k
    · rw [if_pos hk] at hpq
      subst hpq
      simp [hf, hid q hq]
    · rw [if_neg hk] at hpq
      subst hpq
      exact hid q hq
  · rw [show keysOf (modifyNode ns k f) = keysOf ns from
      keys_modifyNode ns k f]
    exact hnd

/-- `addEdge` preserves well-formedness. -/
theorem wf_addEdge (ns : NodeMap) (a b : String) (h : wfNodes ns) :
    wfNodes (addEdge ns a b) := by
  unfold addEdge
  cases hlb : ns.lookup b with
  | none => simpa [hlb] using h
  | some toN =>
      simp only [hlb]
      split
      · exact h
      · apply wf_modifyNode
        · intro n
          rfl
        · apply wf_modifyNode
          · intro n
            rfl
          · exact h

/-- Well-formedness is preserved by folds of preserving functions. -/
theorem wf_foldl_pres {α : Type} (L : List α) (F : NodeMap → α → NodeMap)
    (hF : ∀ ns a, wfNodes ns → wfNodes (F ns a)) (ns : NodeMap)
    (h : wfNodes ns) : wfNodes (L.foldl F ns) := by
  induction L generalizing ns with
  | nil => exact h
  | cons a rest ih => exact ih _ (hF _ _ h)

/-- `addParallelNodes` preserves well-formedness. -/
theorem wf_addParallelNodes (ns : NodeMap) (p : StepDef) (h : wfNodes ns) :
    wfNodes (addParallelNodes ns p) := by
  simp only [addParallelNodes]
  apply wf_setAssoc
  · apply wf_foldl_pres _ _ _ _ h
    intro ns' b hb
    apply wf_foldl_pres _ _ _ _ hb
    intro ns'' bs hbs
    apply wf_setAssoc
    · exact hbs
    · rfl
  · rfl

/-- `addNode` preserves well-formedness. -/
theorem wf_addNodeStep (ns : NodeMap) (st : StepDef) (h : wfNodes ns) :
    wfNodes (addNodeStep ns st) := by
  unfold addNodeStep
  split
  · apply wf_addParallelNodes
    apply wf_setAssoc
    · exact h
    · rfl
  · apply wf_setAssoc
    · exact h
    · rfl

/-- `linkBranchSteps` preserves well-formedness. -/
theorem wf_linkBranchSteps (pId brId joinId : String) (L : List StepDef)
    (ns : NodeMap) (prev : Option String) (h : wfNodes ns) :
    wfNodes (linkBranchSteps pId brId joinId ns prev L) := by
  induction L generalizing ns prev with
  | nil => exact h
  | cons bstep rest ih =>
      simp only [linkBranchSteps]
      apply ih
      have h1 : ∀ ns' : NodeMap, wfNodes ns' →
          wfNodes (bstep.dependsOn.foldl (fun ns dep =>
            let localDep := pId ++ "." ++ brId ++ "." ++ dep
            if (ns.lookup localDep).isSome then
              addEdge ns localDep (pId ++ "." ++ brId ++ "." ++ bstep.id)
            else if (ns.lookup dep).isSome then
              addEdge ns dep (pId ++ "." ++ brId ++ "." ++ bstep.id)
            else ns) ns') := by
        intro ns' h'
        apply wf_foldl_pres _ _ _ _ h'
        intro ns'' dep h''
        dsimp only
        split
        · exact wf_addEdge _ _ _ h''
        · split
          · exact wf_addEdge _ _ _ h''
          · exact h''
      split
      · apply wf_addEdge
        apply h1
        cases prev with
        | none => exact wf_addEdge _ _ _ h
        | some prevId => exact wf_addEdge _ _ _ h
      · apply h1
        cases prev with
        | none => exact wf_addEdge _ _ _ h
        | some prevId => exact wf_addEdge _ _ _ h

/-- `linkParallelDependencies` preserves well-formedness. -/
theorem wf_linkParallelDependencies (ns : NodeMap) (p : StepDef)
    (h : wfNodes ns) : wfNodes (linkParallelDependencies ns p) := by
  unfold linkParallelDependencies
  apply wf_foldl_pres _ _ _ _ h
  intro ns' b hb
  exact wf_linkBranchSteps _ _ _ _ _ _ hb

/-- The dependency-resolution loop preserves well-formedness. -/
theorem wf_linkDeps_fold (deps : List String) (sid : String)
    (ns ns' : NodeMap) (h : wfNodes ns)
    (hf : deps.foldlM (fun ns dep =>
      if (ns.lookup dep).isSome then Except.ok (addEdge ns dep sid)
      else if (ns.lookup (dep ++ ".join")).isSome then
        Except.ok (addEdge ns (dep ++ ".join") sid)
      else Except.error (BuildError.missingDependency sid dep)) ns
        = .ok ns') :
    wfNodes ns' := by
  induction deps generalizing ns with
  | nil =>
      simp only [List.foldlM_nil, pure] at hf
      cases hf
      exact h
  | cons dep rest ih =>
      simp only [List.foldlM_cons] at hf
      split at hf
      · simp only [exc_bind_ok] at hf
        exact ih _ (wf_addEdge _ _ _ h) hf
      · split at hf
        · simp only [exc_bind_ok] at hf
          exact ih _ (wf_addEdge _ _ _ h) hf
        · simp only [exc_bind_err] at hf
          cases hf

/-- `linkDependencies` preserves well-formedness on success. -/
theorem wf_linkDependencies (ns ns' : NodeMap) (st : StepDef)
    (h : wfNodes ns) (hl : linkDependencies ns st = .ok ns') :
    wfNodes ns' := by
  unfold linkDependencies at hl
  cases hf : st.dependsOn.foldlM (fun ns dep =>
      if (ns.lookup dep).isSome then Except.ok (addEdge ns dep st.id)
      else if (ns.lookup (dep ++ ".join")).isSome then
        Except.ok (addEdge ns (dep ++ ".join") st.id)
      else Except.error (BuildError.missingDependency st.id dep)) ns with
  | error e =>
      rw [hf] at hl
      simp only [exc_bind_err] at hl
      cases hl
  | ok nsm =>
      rw [hf] at hl
      simp only [exc_bind_ok] at hl
      have hm := wf_linkDeps_fold _ _ _ _ h hf
      split at hl
      · cases hl
        exact wf_linkParallelDependencies _ _ hm
      · cases hl
        exact hm

/-- The whole linking pass preserves well-formedness on success. -/
theorem wf_link_pass (steps : List StepDef) (ns ns' : NodeMap)
    (h : wfNodes ns)
    (hf : steps.foldlM (fun ns st => linkDependencies ns st) ns = .ok ns') :
    wfNodes ns' := by
  induction steps generalizing ns with
  | nil =>
      simp only [List.foldlM_nil, pure] at hf
      cases hf
      exact h
  | cons st rest ih =>
      simp only [List.foldlM_cons] at hf
      cases hl : linkDependencies ns st with
      | error e =>
          rw [hl] at hf
          simp only [exc_bind_err] at hf
          cases hf
      | ok ns1 =>
          rw [hl] at hf
          simp only [exc_bind_ok] at hf
          exact ih _ (wf_linkDependencies _ _ _ h hl) hf

/-- A successfully built DAG has a well-formed node map. -/
theorem wf_buildDAG (spec : FlowSpec) (dag : DAG)
    (hb : buildDAG spec = .ok dag) : wfNodes dag.nodes := by
  unfold buildDAG at hb
  cases hf : spec.steps.foldlM (fun ns st => linkDependencies ns st)
      (spec.steps.foldl addNodeStep []) with
  | error e =>
      rw [hf] at hb
      simp only [exc_bind_err] at hb
      cases hb
  | ok nodes1 =>
      rw [hf] at hb
      simp only [exc_bind_ok] at hb
      cases hs : topologicalSort nodes1 (findRootNodes nodes1) with
      | error e =>
          rw [hs] at hb
          simp only [exc_bind_err] at hb
          cases hb
      | ok order =>
          rw [hs] at hb
          simp only [exc_bind_ok] at hb
          cases hb
          show wfNodes nodes1
          apply wf_link_pass _ _ _ _ hf
          apply wf_foldl_pres _ _ wf_addNodeStep
          exact ⟨(by intro p hp; cases hp), List.nodup_nil⟩

/-- In a node map with unique keys, entries with equal keys coincide. -/
theorem entry_unique (ns : NodeMap) (hnd : (keysOf ns).Nodup)
    (p q : String × Node) (hp : p ∈ ns) (hq : q ∈ ns) (hk : p.1 = q.1) :
    p = q := by
  induction ns with
  | nil => cases hp
  | cons a rest ih =>
      simp only [keysOf, List.map_cons, List.nodup_cons] at hnd
      rcases List.mem_cons.mp hp with rfl | hp' <;>
        rcases List.mem_cons.mp hq with h | hq'
      · exact h ▸ rfl
      · exact absurd (hk ▸ List.mem_map_of_mem Prod.fst hq') hnd.1
      · subst h
        exact absurd (hk ▸ List.mem_map_of_mem Prod.fst hp') hnd.1
      · exact ih hnd.2 hp' hq'

/-- The completed set only grows across `GetReadyNodes`. -/
theorem getReadyLoop_mono (ns : List (String × Node)) (c r : List String)
    (x : String) (hx : x ∈ c) : x ∈ (getReadyLoop ns c r).2 := by
  induction ns generalizing c with
  | nil => exact hx
  | cons p rest ih =>
      obtain ⟨k, node⟩ := p
      simp only [getReadyLoop]
      split
      · exact ih _ hx
      · split
        · split
          · exact ih _ (List.mem_append_left _ hx)
          · exact ih _ hx
        · split
          · exact ih _ hx
          · exact ih _ hx

/-- Everything `GetReadyNodes` adds to the completed set is the id of a
join node of the map. -/
theorem getReadyLoop_additions (ns : List (String × Node))
    (c r : List String) (x : String)
    (hx : x ∈ (getReadyLoop ns c r).2) :
    x ∈ c ∨ ∃ p ∈ ns, p.2.isJoin = true ∧ p.2.id = x := by
  induction ns generalizing c with
  | nil => exact Or.inl hx
  | cons p rest ih =>
      obtain ⟨k, node⟩ := p
      simp only [getReadyLoop] at hx
      have push : x ∈ c ∨ (∃ p ∈ rest, p.2.isJoin = true ∧ p.2.id = x) →
          x ∈ c ∨ ∃ p ∈ (k, node) :: rest, p.2.isJoin = true ∧ p.2.id = x := by
        rintro (h | ⟨q, hq, hj⟩)
        · exact Or.inl h
        · exact Or.inr ⟨q, List.mem_cons.mpr (Or.inr hq), hj⟩
      split at hx
      · rcases ih _ hx with h | ⟨q, hq, hj⟩
        · exact Or.inl h
        · exact Or.inr ⟨q, List.mem_cons.mpr (Or.inr hq), hj⟩
      · split at hx
        next hJoin =>
          split at hx
          · rcases ih _ hx with h | ⟨q, hq, hj⟩
            · rcases List.mem_append.mp h with h' | h'
              · exact Or.inl h'
              · exact Or.inr ⟨(k, node), List.mem_cons_self _ _, hJoin,
                  (List.mem_singleton.mp h').symm⟩
            · exact Or.inr ⟨q, List.mem_cons.mpr (Or.inr hq), hj⟩
          · rcases ih _ hx with h | ⟨q, hq, hj⟩
            · exact Or.inl h
            · exact Or.inr ⟨q, List.mem_cons.mpr (Or.inr hq), hj⟩
        next hJoin =>
          split at hx
          · rcases ih _ hx with h | ⟨q, hq, hj⟩
            · exact Or.inl h
            · exact Or.inr ⟨q, List.mem_cons.mpr (Or.inr hq), hj⟩
          · rcases ih _ hx with h | ⟨q, hq, hj⟩
            · exact Or.inl h
            · exact Or.inr ⟨q, List.mem_cons.mpr (Or.inr hq), hj⟩

/-- Every node returned by `GetReadyNodes` is a non-join node of the map,
not completed, not running, with every dependency in the final completed
set. -/
theorem getReadyLoop_ready (ns : List (String × Node)) (c r : List String) :
    ∀ n ∈ (getReadyLoop ns c r).1,
      n.isJoin = false ∧ n.id ∉ c ∧ n.id ∉ r ∧ (∃ p ∈ ns, p.2 = n) ∧
      ∀ d ∈ n.dependsOn, d ∈ (getReadyLoop ns c r).2 := by
  induction ns generalizing c with
  | nil => intro n hn; cases hn
  | cons p rest ih =>
      obtain ⟨k, node⟩ := p
      intro n hn
      simp only [getReadyLoop] at hn ⊢
      have weaken : ∀ c' : List String, c ⊆ c' →
          (n.isJoin = false ∧ n.id ∉ c' ∧ n.id ∉ r ∧ (∃ p ∈ rest, p.2 = n) ∧
            ∀ d ∈ n.dependsOn, d ∈ (getReadyLoop rest c' r).2) →
          n.isJoin = false ∧ n.id ∉ c ∧ n.id ∉ r ∧
            (∃ p ∈ (k, node) :: rest, p.2 = n) ∧
            ∀ d ∈ n.dependsOn, d ∈ (getReadyLoop rest c' r).2 := by
        rintro c' hsub ⟨h1, h2, h3, ⟨q, hq, hqn⟩, h5⟩
        exact ⟨h1, fun hc => h2 (hsub hc), h3,
          ⟨q, List.mem_cons.mpr (Or.inr hq), hqn⟩, h5⟩
      by_cases h1 : (c.contains node.id || r.contains node.id) = true
      · rw [if_pos h1] at hn ⊢
        exact weaken c (fun _ h => h) (ih c n hn)
      · rw [if_neg h1] at hn ⊢
        by_cases h2 : node.isJoin = true
        · rw [if_pos h2] at hn ⊢
          by_cases h3 : node.dependsOn.all c.contains = true
          · rw [if_pos h3] at hn ⊢
            exact weaken (c ++ [node.id])
              (fun _ h => List.mem_append_left _ h) (ih _ n hn)
          · rw [if_neg h3] at hn ⊢
            exact weaken c (fun _ h => h) (ih c n hn)
        · rw [if_neg h2] at hn ⊢
          by_cases h3 : node.dependsOn.all c.contains = true
          · rw [if_pos h3] at hn ⊢
            simp only [] at hn
            rcases List.mem_cons.mp hn with rfl | hn'
            · constructor
              · exact Bool.not_eq_true _ ▸ eq_false_of_ne_true h2
              · have hboth := h1
                simp only [Bool.or_eq_true, List.elem_eq_mem,
                  decide_eq_true_eq, not_or] at hboth
                refine ⟨hboth.1, hboth.2,
                  ⟨(k, n), List.mem_cons_self _ _, rfl⟩, ?_⟩
                intro d hd
                apply getReadyLoop_mono
                simp only [List.all_eq_true, List.elem_eq_mem,
                  decide_eq_true_eq] at h3
                exact h3 d hd
            · exact weaken c (fun _ h => h) (ih c n hn')
          · rw [if_neg h3] at hn ⊢
            exact weaken c (fun _ h => h) (ih c n hn)

/-- A join node of the map, not marked running, all of whose
dependencies are already completed, ends up in the final completed set. -/
theorem getReadyLoop_join (ns : List (String × Node)) (c r : List String) :
    ∀ p ∈ ns, p.2.isJoin = true → (∀ d ∈ p.2.dependsOn, d ∈ c) →
      p.2.id ∉ r → p.2.id ∈ (getReadyLoop ns c r).2 := by
  induction ns generalizing c with
  | nil => intro p hp; cases hp
  | cons q rest ih =>
      obtain ⟨k, node⟩ := q
      intro p hp hJoin hdeps hrun
      rcases List.mem_cons.mp hp with rfl | hp'
      · simp only [getReadyLoop]
        by_cases h1 : (c.contains node.id || r.contains node.id) = true
        · rw [if_pos h1]
          simp only [Bool.or_eq_true, List.elem_eq_mem,
            decide_eq_true_eq] at h1
          rcases h1 with hc | hr
          · exact getReadyLoop_mono _ _ _ _ hc
          · exact absurd hr hrun
        · rw [if_neg h1, if_pos hJoin]
          have h3 : node.dependsOn.all c.contains = true := by
            simp only [List.all_eq_true, List.elem_eq_mem,
              decide_eq_true_eq]
            exact hdeps
          rw [if_pos h3]
          exact getReadyLoop_mono _ _ _ _
            (List.mem_append_right _ (by simp))
      · simp only [getReadyLoop]
        by_cases h1 : (c.contains node.id || r.contains node.id) = true
        · rw [if_pos h1]
          exact ih c p hp' hJoin hdeps hrun
        · rw [if_neg h1]
          by_cases h2 : node.isJoin = true
          · rw [if_pos h2]
            by_cases h3 : node.dependsOn.all c.contains = true
            · rw [if_pos h3]
              exact ih _ p hp' hJoin
                (fun d hd => List.mem_append_left _ (hdeps d hd)) hrun
            · rw [if_neg h3]
              exact ih c p hp' hJoin hdeps hrun
          · rw [if_neg h2]
            by_cases h3 : node.dependsOn.all c.contains = true
            · rw [if_pos h3]
              exact ih c p hp' hJoin hdeps hrun
            · rw [if_neg h3]
              exact ih c p hp' hJoin hdeps hrun

/-- C1 (amended): for every DAG built from a flow spec and all
`(completed, running)` sets in which no join node is marked running (as
holds for all orchestrator-produced sets), every node returned by
`GetReadyNodes` is a non-join node of the DAG that is in neither the
given `completed` nor `running` nor the final completed set, and whose
dependencies are all in the (final, join-augmented) completed set; join
nodes are never returned, and any join node all of whose dependencies
are in `completed` is instead silently added to the completed set by the
call, which otherwise only grows `completed`. (Without the
no-join-running proviso the claim fails — see the counterexample.) -/
theorem c1_getReadyNodes_sound (spec : FlowSpec) (dag : DAG)
    (hb : buildDAG spec = .ok dag) (completed running : List String)
    (hjr : ∀ p ∈ dag.nodes, p.2.isJoin = true → p.2.id ∉ running) :
    (∀ n ∈ (getReadyNodes dag completed running).1,
      n.isJoin = false ∧ n.id ∉ completed ∧ n.id ∉ running ∧
      n.id ∉ (getReadyNodes dag completed running).2 ∧
      ∀ d ∈ n.dependsOn, d ∈ (getReadyNodes dag completed running).2) ∧
    (∀ p ∈ dag.nodes, p.2.isJoin = true →
      (∀ d ∈ p.2.dependsOn, d ∈ completed) →
      p.2.id ∈ (getReadyNodes dag completed running).2) ∧
    (∀ x ∈ completed, x ∈ (getReadyNodes dag completed running).2) := by
  obtain ⟨hkeys, hnd⟩ := wf_buildDAG spec dag hb
  refine ⟨?_, ?_, ?_⟩
  · intro n hn
    obtain ⟨h1, h2, h3, ⟨p, hp, hpn⟩, h5⟩ :=
      getReadyLoop_ready dag.nodes completed running n hn
    refine ⟨h1, h2, h3, ?_, h5⟩
    intro hfin
    rcases getReadyLoop_additions dag.nodes completed running n.id hfin with
      hc | ⟨q, hq, hqJoin, hqid⟩
    · exact h2 hc
    · have hpq : p = q := by
        apply entry_unique dag.nodes hnd p q hp hq
        rw [hkeys p hp, hkeys q hq, hpn, hqid]
      rw [← hpq, hpn] at hqJoin
      rw [hqJoin] at h1
      cases h1
  · intro p hp hJoin hdeps
    exact getReadyLoop_join dag.nodes completed running p hp hJoin hdeps
      (hjr p hp hJoin)
  · intro x hx
    exact getReadyLoop_mono dag.nodes completed running x hx

/-- C1 counterexample: on the DAG of `pOnlySpec`, with `completed =
\x7bp, p.b.s\x7d` and `running = \x7bp.join\x7d`, the join node `p.join`
has all its dependencies completed yet is NOT added to the completed set
(the code skips every node listed in `running`, joins included),
refuting the claim's universal quantification over `(completed, running)`
sets. -/
theorem c1_join_running_counterexample :
    buildDAG pOnlySpec = .ok pOnlyDag ∧
    ((pOnlyDag.nodes.lookup "p.join").map
      (fun j => j.isJoin && j.dependsOn.all (["p", "p.b.s"].contains)))
      = some true ∧
    (getReadyNodes pOnlyDag ["p", "p.b.s"] ["p.join"]).2.contains "p.join"
      = false := by
  refine ⟨rfl, rfl, rfl⟩

/-- C1 witness: the soundness statement instantiated on the parallel
sample spec with empty completed/running sets. -/
theorem c1_getReadyNodes_sound_witness :
    ∃ dag, buildDAG parallelSampleSpec = .ok dag ∧
      ((∀ n ∈ (getReadyNodes dag [] []).1,
        n.isJoin = false ∧ n.id ∉ ([] : List String) ∧
        n.id ∉ ([] : List String) ∧
        n.id ∉ (getReadyNodes dag [] []).2 ∧
        ∀ d ∈ n.dependsOn, d ∈ (getReadyNodes dag [] []).2) ∧
      (∀ p ∈ dag.nodes, p.2.isJoin = true →
        (∀ d ∈ p.2.dependsOn, d ∈ ([] : List String)) →
        p.2.id ∈ (getReadyNodes dag [] []).2) ∧
      (∀ x ∈ ([] : List String), x ∈ (getReadyNodes dag [] []).2)) := by
  cases hbd : buildDAG parallelSampleSpec with
  | error e =>
      have : (buildDAG parallelSampleSpec).isOk = true := by rfl
      rw [hbd] at this
      cases this
  | ok dag =>
      refine ⟨dag, rfl, ?_⟩
      exact c1_getReadyNodes_sound parallelSampleSpec dag hbd [] []
        (fun p _ _ => List.not_mem_nil _)

/-- C3: for every due schedule whose flow has a latest version, the
idempotency key used is `"\x7bschedule_id\x7d_\x7bnext_due_at_unix\x7d"`;
when a run for `(flow_id, key)` exists its id is reused and no run is
created; otherwise exactly one new PENDING run with `inputs =
schedule.inputs` and `is_sandbox = false` under that key is inserted; and
a second tick for the same `(schedule id, flow, next_due_at)` on the
resulting store creates zero runs. -/
theorem c3_processSchedule_idempotent (latest : List (String × Int))
    (runs : List Run) (sched : Schedule) (nowUnix : Int)
    (newRunId : String) (calcNext : Option Int) (ver : Int)
    (hver : latest.lookup sched.flowId = some ver) :
    (∀ ex, getByIdempotencyKey runs sched.flowId
        (sched.id ++ "_" ++ toString sched.nextDueAtUnix) = some ex →
      (processSchedule latest runs sched nowUnix newRunId calcNext).1 = runs ∧
      (processSchedule latest runs sched nowUnix newRunId calcNext).2.2.1
        = false ∧
      (processSchedule latest runs sched nowUnix newRunId calcNext).2.2.2
        = some ex.id) ∧
    (getByIdempotencyKey runs sched.flowId
        (sched.id ++ "_" ++ toString sched.nextDueAtUnix) = none →
      (processSchedule latest runs sched nowUnix newRunId calcNext).1 =
        runs ++ [schedRun sched newRunId ver] ∧
      (processSchedule latest runs sched nowUnix newRunId calcNext).2.2.1
        = true) ∧
    (∀ (sched' : Schedule) (now' : Int) (id' : String) (cn' : Option Int),
      sched'.id = sched.id → sched'.flowId = sched.flowId →
      sched'.nextDueAtUnix = sched.nextDueAtUnix →
      (processSchedule latest
        (processSchedule latest runs sched nowUnix newRunId calcNext).1
        sched' now' id' cn').2.2.1 = false ∧
      (processSchedule latest
        (processSchedule latest runs sched nowUnix newRunId calcNext).1
        sched' now' id' cn').1 =
        (processSchedule latest runs sched nowUnix newRunId calcNext).1) := by
  simp only [processSchedule, hver]
  cases hfind : getByIdempotencyKey runs sched.flowId
      (sched.id ++ "_" ++ toString sched.nextDueAtUnix) with
  | some ex =>
      refine ⟨?_, ?_, ?_⟩
      · intro ex' hex'
        injection hex' with h
        subst h
        cases calcNext <;> exact ⟨rfl, rfl, rfl⟩
      · intro hnone
        exact Option.noConfusion hnone
      · intro sched' now' id' cn' hid hflow hdue
        have hkey : sched'.id ++ "_" ++ toString sched'.nextDueAtUnix =
            sched.id ++ "_" ++ toString sched.nextDueAtUnix := by
          rw [hid, hdue]
        cases calcNext <;>
          · simp only [processSchedule, hflow, hkey, hver, hfind]
            cases cn' <;> exact ⟨rfl, rfl⟩
  | none =>
      refine ⟨?_, ?_, ?_⟩
      · intro ex' hex'
        exact Option.noConfusion hex'
      · intro _
        cases calcNext <;> exact ⟨rfl, rfl⟩
      · intro sched' now' id' cn' hid hflow hdue
        have hkey : sched'.id ++ "_" ++ toString sched'.nextDueAtUnix =
            sched.id ++ "_" ++ toString sched.nextDueAtUnix := by
          rw [hid, hdue]
        have hfind2 : getByIdempotencyKey
            (runs ++ [schedRun sched newRunId ver]) sched.flowId
            (sched.id ++ "_" ++ toString sched.nextDueAtUnix) =
            some (schedRun sched newRunId ver) := by
          unfold getByIdempotencyKey at hfind ⊢
          simp only [List.find?_append, hfind]
          simp [schedRun]
        cases calcNext <;>
          · simp only [processSchedule, hflow, hkey, hver, hfind2]
            cases cn' <;> exact ⟨rfl, rfl⟩

/-- A concrete schedule for the C3 witness (the spec's literal
schedule-idempotency scenario: next due 2024-01-01T12:00:00Z). -/
def sampleSchedule : Schedule :=
  { id := "sch", flowId := "f", nextDueAtUnix := 1704110400,
    inputs := [("param", Json.str "v")], lastRunId := none,
    lastRunAtUnix := none }

/-- C3 witness: the idempotency statement instantiated on a concrete
store with one flow at version 2 and no runs. -/
theorem c3_processSchedule_idempotent_witness :
    [("f", (2 : Int))].lookup sampleSchedule.flowId = some 2 ∧
    ((∀ ex, getByIdempotencyKey [] sampleSchedule.flowId
        (sampleSchedule.id ++ "_" ++ toString sampleSchedule.nextDueAtUnix)
        = some ex →
      (processSchedule [("f", 2)] [] sampleSchedule 1704110405 "r1"
        (some 1704114000)).1 = [] ∧
      (processSchedule [("f", 2)] [] sampleSchedule 1704110405 "r1"
        (some 1704114000)).2.2.1 = false ∧
      (processSchedule [("f", 2)] [] sampleSchedule 1704110405 "r1"
        (some 1704114000)).2.2.2 = some ex.id) ∧
    (getByIdempotencyKey [] sampleSchedule.flowId
        (sampleSchedule.id ++ "_" ++ toString sampleSchedule.nextDueAtUnix)
        = none →
      (processSchedule [("f", 2)] [] sampleSchedule 1704110405 "r1"
        (some 1704114000)).1 =
        [] ++ [schedRun sampleSchedule "r1" 2] ∧
      (processSchedule [("f", 2)] [] sampleSchedule 1704110405 "r1"
        (some 1704114000)).2.2.1 = true) ∧
    (∀ (sched' : Schedule) (now' : Int) (id' : String) (cn' : Option Int),
      sched'.id = sampleSchedule.id → sched'.flowId = sampleSchedule.flowId →
      sched'.nextDueAtUnix = sampleSchedule.nextDueAtUnix →
      (processSchedule [("f", 2)]
        (processSchedule [("f", 2)] [] sampleSchedule 1704110405 "r1"
          (some 1704114000)).1 sched' now' id' cn').2.2.1 = false ∧
      (processSchedule [("f", 2)]
        (processSchedule [("f", 2)] [] sampleSchedule 1704110405 "r1"
          (some 1704114000)).1 sched' now' id' cn').1 =
        (processSchedule [("f", 2)] [] sampleSchedule 1704110405 "r1"
          (some 1704114000)).1)) :=
  ⟨rfl, c3_processSchedule_idempotent [("f", 2)] [] sampleSchedule
    1704110405 "r1" (some 1704114000) 2 rfl⟩

/-- Trace and exit characterization of the fuelled `executeWithRetry`
loop: attempts count up by one per execution, every execution past the
first was licensed at decision time by `CanRetry` and `shouldRetry` after
a failed execution, the returned pair is the last execution's outcome,
and a failing last execution means the loop stopped on exhaustion or a
non-retriable error. -/
theorem retryLoop_spec (exec : Nat → ExecOutcome) (policy : Option RetryPolicy)
    (maxAttempts : Int) :
    ∀ fuel idx task t' r' e' tr,
      (maxAttempts - task.attempt).toNat < fuel →
      executeWithRetryLoop exec policy maxAttempts fuel idx task =
        (t', r', e', tr) →
      1 ≤ tr.length ∧
      (∀ k, k < tr.length → tr[k]? = some (task.attempt + (k : Int))) ∧
      t'.attempt = task.attempt + ((tr.length - 1 : Nat) : Int) ∧
      (∀ k, k + 1 < tr.length →
        execSuccess (exec (idx + k)) = false ∧
        task.attempt + (k : Int) < maxAttempts ∧
        shouldRetry (exec (idx + k)).result (exec (idx + k)).err policy =
          true) ∧
      r' = (exec (idx + (tr.length - 1))).result ∧
      e' = (exec (idx + (tr.length - 1))).err ∧
      (execSuccess (exec (idx + (tr.length - 1))) = false →
        maxAttempts ≤ task.attempt + ((tr.length - 1 : Nat) : Int) ∨
        shouldRetry (exec (idx + (tr.length - 1))).result
          (exec (idx + (tr.length - 1))).err policy = false) := by
  intro fuel
  induction fuel with
  | zero =>
      intro idx task t' r' e' tr h _
      exact absurd h (Nat.not_lt_zero _)
  | succ fuel ih =>
      intro idx task t' r' e' tr h hres
      simp only [executeWithRetryLoop] at hres
      by_cases hs : execSuccess (exec idx) = true
      · rw [if_pos hs] at hres
        simp only [Prod.mk.injEq] at hres
        obtain ⟨rfl, rfl, rfl, rfl⟩ := hres
        refine ⟨by simp, ?_, by simp, ?_, by simp, by simp, ?_⟩
        · intro k hk
          have hk0 : k = 0 := by simpa using hk
          subst hk0
          simp
        · intro k hk
          simp only [List.length_singleton] at hk
          omega
        · intro hf
          simp only [List.length_singleton, Nat.sub_self, Nat.add_zero] at hf
          simp [hf] at hs
      · rw [if_neg hs] at hres
        have hs0 : execSuccess (exec idx) = false := by simpa using hs
        by_cases hc : task.canRetry maxAttempts = true
        · have hc' : ¬((! task.canRetry maxAttempts) = true) := by simp [hc]
          rw [if_neg hc'] at hres
          have hcr : task.attempt < maxAttempts := by
            simpa [Task.canRetry] using hc
          by_cases hr :
              shouldRetry (exec idx).result (exec idx).err policy = true
          · have hr' :
                ¬((! shouldRetry (exec idx).result (exec idx).err policy) =
                  true) := by simp [hr]
            rw [if_neg hr'] at hres
            set X := executeWithRetryLoop exec policy maxAttempts fuel
              (idx + 1) (task.resetForRetry.markRunning) with hX
            simp only [Prod.mk.injEq] at hres
            obtain ⟨rfl, rfl, rfl, rfl⟩ := hres
            have hat2 : (task.resetForRetry.markRunning).attempt =
                task.attempt + 1 := rfl
            have hfuel2 :
                (maxAttempts - (task.resetForRetry.markRunning).attempt).toNat
                  < fuel := by
              rw [hat2]
              omega
            obtain ⟨iL, itr, iat, ijust, ires, ierr, istop⟩ :=
              ih (idx + 1) (task.resetForRetry.markRunning) X.1 X.2.1 X.2.2.1
                X.2.2.2 hfuel2 (by rw [← hX])
            rw [hat2] at iat
            simp only [hat2] at itr ijust istop
            have hidx2 : idx + 1 + (X.2.2.2.length - 1) =
                idx + ((task.attempt :: X.2.2.2).length - 1) := by
              simp only [List.length_cons]
              omega
            refine ⟨by simp, ?_, ?_, ?_, ?_, ?_, ?_⟩
            · intro k hk
              cases k with
              | zero => simp
              | succ j =>
                  have hj : j < X.2.2.2.length := by
                    simp only [List.length_cons] at hk
                    omega
                  rw [List.getElem?_cons_succ, itr j hj]
                  congr 1
                  omega
            · simp only [List.length_cons]
              rw [iat]
              omega
            · intro k hk
              cases k with
              | zero =>
                  refine ⟨by simpa using hs0, by simpa using hcr,
                    by simpa using hr⟩
              | succ j =>
                  have hj : j + 1 < X.2.2.2.length := by
                    simp only [List.length_cons] at hk
                    omega
                  obtain ⟨a, b, c⟩ := ijust j hj
                  have hix : idx + 1 + j = idx + (j + 1) := by omega
                  rw [hix] at a c
                  refine ⟨a, by omega, c⟩
            · rw [ires, hidx2]
            · rw [ierr, hidx2]
            · intro hf
              rw [← hidx2] at hf
              rcases istop hf with hle | hsr
              · left
                simp only [List.length_cons]
                omega
              · right
                rw [← hidx2]
                exact hsr
          · have hr' :
                (! shouldRetry (exec idx).result (exec idx).err policy) =
                  true := by simp [hr]
            rw [if_pos hr'] at hres
            simp only [Prod.mk.injEq] at hres
            obtain ⟨rfl, rfl, rfl, rfl⟩ := hres
            refine ⟨by simp, ?_, by simp, ?_, by simp, by simp, ?_⟩
            · intro k hk
              have hk0 : k = 0 := by simpa using hk
              subst hk0
              simp
            · intro k hk
              simp only [List.length_singleton] at hk
              omega
            · intro _
              right
              have hix : idx + ([task.attempt].length - 1) = idx := by simp
              rw [hix]
              simpa using hr
        · have hc' : (! task.canRetry maxAttempts) = true := by simp [hc]
          rw [if_pos hc'] at hres
          simp only [Prod.mk.injEq] at hres
          obtain ⟨rfl, rfl, rfl, rfl⟩ := hres
          refine ⟨by simp, ?_, by simp, ?_, by simp, by simp, ?_⟩
          · intro k hk
            have hk0 : k = 0 := by simpa using hk
            subst hk0
            simp
          · intro k hk
            simp only [List.length_singleton] at hk
            omega
          · intro _
            left
            have hle : maxAttempts ≤ task.attempt := by
              simp only [Task.canRetry, decide_eq_true_eq] at hc
              omega
            simpa using hle

/-- C5: max attempts resolve to `policy.MaxAttempts` when positive and to
1 otherwise (nil policy included); `shouldRetry` follows the policy —
infra errors always retriable, no policy never retriable, a non-empty
`on_status` list decides by the `status_code` output, and a logical error
without `on_status` is retriable; and for every queued task, `processTask`
runs the executor at least once, each execution past the first was
licensed by a failed previous execution with attempts below the limit and
a positive retry decision, and a failing final execution means the loop
stopped on exhaustion or a non-retriable error, marks the task FAILED and
publishes `task.completed` with status FAILED and the computed error
message (a succeeding final execution marks SUCCEEDED). -/
theorem c5_worker_retry (exec : Nat → ExecOutcome) (policy : Option RetryPolicy)
    (task : Task) (hq : task.status = TaskStatus.queued) :
    (∀ p, effMaxAttempts (some p) =
        if p.maxAttempts > 0 then p.maxAttempts else 1) ∧
    effMaxAttempts none = 1 ∧
    (∀ r e, shouldRetry r (some e) policy = true) ∧
    (∀ r, shouldRetry r none none = false) ∧
    (∀ p r outs c, r.outputs = some outs → p.onStatus ≠ [] →
        outs.lookup "status_code" = some (Json.num c) →
        shouldRetry (some r) none (some p) = p.onStatus.contains c) ∧
    (∀ p r, p.onStatus = [] → shouldRetry (some r) none (some p) = true) ∧
    ∃ t3 payload trc,
      processTask exec policy task = .ok (t3, payload, trc) ∧
      1 ≤ trc.length ∧
      (∀ k, k < trc.length →
        trc[k]? = some (task.attempt + 1 + (k : Int))) ∧
      (∀ k, k + 1 < trc.length →
        execSuccess (exec k) = false ∧
        task.attempt + 1 + (k : Int) < effMaxAttempts policy ∧
        shouldRetry (exec k).result (exec k).err policy = true) ∧
      (execSuccess (exec (trc.length - 1)) = false →
        (effMaxAttempts policy ≤
            task.attempt + 1 + ((trc.length - 1 : Nat) : Int) ∨
          shouldRetry (exec (trc.length - 1)).result
            (exec (trc.length - 1)).err policy = false) ∧
        t3.status = TaskStatus.failed ∧
        payload.status = "FAILED" ∧
        payload.error = outcomeErrMsg (exec (trc.length - 1))) ∧
      (execSuccess (exec (trc.length - 1)) = true →
        t3.status = TaskStatus.succeeded ∧
        payload.status = "SUCCEEDED" ∧
        payload.error = "") := by
  refine ⟨fun p => rfl, rfl, fun r e => rfl, fun r => rfl, ?_, ?_, ?_⟩
  · intro p r outs c houts hns hlook
    have hpos : 0 < p.onStatus.length := List.length_pos.mpr hns
    simp [shouldRetry, houts, hlook, hpos, shouldRetryHTTPStatus]
  · intro p r hemp
    cases houts : r.outputs with
    | none => simp [shouldRetry, houts]
    | some outs => simp [shouldRetry, houts, hemp]
  · have hq' : ¬(task.status ≠ TaskStatus.queued) := by simp [hq]
    obtain ⟨⟨t2, r2, e2, tr⟩, hE⟩ :
        ∃ x, executeWithRetry exec policy task.markRunning = x := ⟨_, rfl⟩
    have hE' : executeWithRetryLoop exec policy (effMaxAttempts policy)
        (retryFuel task.markRunning (effMaxAttempts policy)) 0
        task.markRunning = (t2, r2, e2, tr) := hE
    obtain ⟨hL, htr, hat, hjust, hres, herr, hstop⟩ :=
      retryLoop_spec exec policy (effMaxAttempts policy)
        (retryFuel task.markRunning (effMaxAttempts policy)) 0
        task.markRunning t2 r2 e2 tr (Nat.lt_succ_self _) hE'
    have hpt : processTask exec policy task = finishTask t2 r2 e2 tr := by
      simp only [processTask]
      rw [if_neg hq', hE]
    have hma : (task.markRunning).attempt = task.attempt + 1 := rfl
    simp only [hma, Nat.zero_add] at htr hjust hstop
    rw [Nat.zero_add] at hres herr
    cases hout : exec (tr.length - 1) with
    | infra m =>
        have he2 : e2 = some m := by
          rw [herr, hout]
          rfl
        have hr2 : r2 = none := by
          rw [hres, hout]
          rfl
        subst he2
        subst hr2
        simp only [finishTask] at hpt
        refine ⟨_, _, tr, hpt, hL, htr, hjust, ?_, ?_⟩
        · intro hf
          refine ⟨hstop hf, rfl, rfl, ?_⟩
          rw [hout]
          rfl
        · intro hsucc
          rw [hout] at hsucc
          simp [execSuccess] at hsucc
    | res r =>
        have he2 : e2 = none := by
          rw [herr, hout]
          rfl
        have hr2 : r2 = some r := by
          rw [hres, hout]
          rfl
        subst he2
        subst hr2
        by_cases hre : r.error = ""
        · simp only [finishTask, if_pos hre] at hpt
          refine ⟨_, _, tr, hpt, hL, htr, hjust, ?_, ?_⟩
          · intro hf
            rw [hout] at hf
            simp [execSuccess, hre] at hf
          · intro _
            exact ⟨rfl, rfl, rfl⟩
        · simp only [finishTask, if_neg hre] at hpt
          refine ⟨_, _, tr, hpt, hL, htr, hjust, ?_, ?_⟩
          · intro hf
            refine ⟨hstop hf, rfl, rfl, ?_⟩
            rw [hout]
            rfl
          · intro hsucc
            rw [hout] at hsucc
            simp only [execSuccess, beq_iff_eq] at hsucc
            exact absurd hsucc hre

/-- C5 witness: the characterization applied to a concrete queued task
under a three-attempt 503-retry policy where the first execution fails
with a 503 logical error and the second succeeds. -/
theorem c5_worker_retry_witness :
    c5task.status = TaskStatus.queued ∧
    ∃ t3 payload trc,
      processTask c5exec (some c5policy) c5task = .ok (t3, payload, trc) ∧
      1 ≤ trc.length := by
  refine ⟨rfl, ?_⟩
  obtain ⟨-, -, -, -, -, -, t3, payload, trc, h1, h2, -⟩ :=
    c5_worker_retry c5exec (some c5policy) c5task rfl
  exact ⟨t3, payload, trc, h1, h2⟩

/-- Inserting into a set leaves it non-empty. -/
theorem insertSet_ne_nil (xs : List String) (x : String) :
    insertSet xs x ≠ [] := by
  by_cases hc : xs.contains x = true
  · rw [insertSet, if_pos hc]
    intro h
    rw [h] at hc
    simp at hc
  · rw [insertSet, if_neg hc]
    simp

/-- Applying a completion never touches the run record. -/
theorem applyCompletion_run (s : RunState) (payload : TaskCompletedPayload)
    (outs : Option JsonMap) : (applyCompletion s payload outs).run = s.run := by
  unfold applyCompletion
  split <;> rfl

/-- `GetReadySteps` never touches the run record. -/
theorem getReadySteps_run (s : RunState) : (s.getReadySteps).2.run = s.run :=
  rfl

/-- `dispatchStep` never touches the run record. -/
theorem dispatchStep_run (texec : String → Context → Except String String)
    (cond : String → Context → Except String Bool)
    (newTaskId : String → String) (s : RunState) (node : Node) :
    (dispatchStep texec cond newTaskId s node).1.run = s.run := by
  simp only [dispatchStep]
  repeat' split
  all_goals rfl

/-- Every task `dispatchStep` creates is QUEUED at attempt 0 for the
dispatched node in the current run. -/
theorem dispatchStep_task (texec : String → Context → Except String String)
    (cond : String → Context → Except String Bool)
    (newTaskId : String → String) (s : RunState) (node : Node) (t : Task) :
    (dispatchStep texec cond newTaskId s node).2 = some t →
    t.status = TaskStatus.queued ∧ t.attempt = 0 ∧ t.runId = s.run.id ∧
      t.stepId = node.id := by
  simp only [dispatchStep]
  repeat' split
  all_goals intro h
  all_goals first
    | exact Option.noConfusion h
    | (injection h with h
       subst h
       exact ⟨rfl, rfl, rfl, rfl⟩)

/-- The dispatch loop preserves the run record, and every task it adds to
the accumulator is QUEUED at attempt 0 for one of the dispatched nodes. -/
theorem dispatchFold_spec (texec : String → Context → Except String String)
    (cond : String → Context → Except String Bool)
    (newTaskId : String → String) :
    ∀ (ns : List Node) (s0 : RunState) (acc : List Task),
      (ns.foldl (dispatchFoldStep texec cond newTaskId) (s0, acc)).1.run =
        s0.run ∧
      ∀ t ∈ (ns.foldl (dispatchFoldStep texec cond newTaskId) (s0, acc)).2,
        t ∈ acc ∨ (t.status = TaskStatus.queued ∧ t.attempt = 0 ∧
          t.runId = s0.run.id ∧ t.stepId ∈ ns.map Node.id) := by
  intro ns
  induction ns with
  | nil =>
      intro s0 acc
      exact ⟨rfl, fun t ht => .inl ht⟩
  | cons n rest ih =>
      intro s0 acc
      simp only [List.foldl_cons]
      have hrun := dispatchStep_run texec cond newTaskId s0 n
      rcases hx : dispatchFoldStep texec cond newTaskId (s0, acc) n
        with ⟨s1, acc1⟩
      simp only [dispatchFoldStep, Prod.mk.injEq] at hx
      obtain ⟨hs1, hacc1⟩ := hx
      obtain ⟨ih1, ih2⟩ := ih s1 acc1
      constructor
      · rw [ih1, ← hs1, hrun]
      · intro t ht
        rcases ih2 t ht with hin | hnew
        · rw [← hacc1] at hin
          rcases List.mem_append.mp hin with h1 | h2
          · exact .inl h1
          · right
            cases hd : (dispatchStep texec cond newTaskId s0 n).2 with
            | none =>
                rw [hd] at h2
                cases h2
            | some t0 =>
                rw [hd] at h2
                have ht0 : t = t0 := by simpa using h2
                subst ht0
                obtain ⟨a, b, c, d⟩ :=
                  dispatchStep_task texec cond newTaskId s0 n t hd
                exact ⟨a, b, c, by simp [d]⟩
        · right
          obtain ⟨a, b, c, d⟩ := hnew
          refine ⟨a, b, ?_, ?_⟩
          · rw [c, ← hs1, hrun]
          · simp only [List.map_cons, List.mem_cons]
            exact .inr d

/-- C2: applying one `task.completed` event to an active run state, a
failure is recorded exactly when the event is not SUCCEEDED or some step
had already failed; in that case the run is finalized FAILED (a terminal
status) with the message `"steps failed: [ids]"` listing the failed step
ids and no task is created; with no failure and every executable node
completed the run is finalized SUCCEEDED with no task created; otherwise
the run record is untouched and every created task is a QUEUED attempt-0
task of the run for one of the newly ready nodes. -/
theorem c2_taskCompleted_finalization
    (texec : String → Context → Except String String)
    (cond : String → Context → Except String Bool)
    (newTaskId : String → String) (s : RunState)
    (payload : TaskCompletedPayload) (outs : Option JsonMap)
    (s' : RunState) (ts : List Task)
    (hrun : processTaskCompleted texec cond newTaskId s payload outs =
      (s', ts)) :
    ((applyCompletion s payload outs).hasFailed = true ↔
      (payload.status ≠ "SUCCEEDED" ∨ s.failed ≠ [])) ∧
    ((applyCompletion s payload outs).hasFailed = true →
      s'.run.status = RunStatus.failed ∧
      s'.run.error = "steps failed: " ++
        goStringSlice (applyCompletion s payload outs).failed ∧
      RunStatus.isTerminal s'.run.status = true ∧
      ts = []) ∧
    ((applyCompletion s payload outs).hasFailed = false →
      (applyCompletion s payload outs).isComplete = true →
      s'.run.status = RunStatus.succeeded ∧
      RunStatus.isTerminal s'.run.status = true ∧
      ts = []) ∧
    ((applyCompletion s payload outs).hasFailed = false →
      (applyCompletion s payload outs).isComplete = false →
      s'.run = s.run ∧
      ∀ t ∈ ts, t.status = TaskStatus.queued ∧ t.attempt = 0 ∧
        t.runId = s.run.id ∧
        t.stepId ∈
          ((applyCompletion s payload outs).getReadySteps).1.map Node.id) ∧
    ((applyCompletion s payload outs).hasFailed = false →
      ((applyCompletion s payload outs).isComplete = true ↔
        (getExecutableNodes (applyCompletion s payload outs).dag).all
          (fun n => (applyCompletion s payload outs).completed.contains n.id)
          = true)) := by
  refine ⟨?_, ?_, ?_, ?_, ?_⟩
  · by_cases hp : payload.status = "SUCCEEDED"
    · simp [applyCompletion, hp, RunState.markStepCompleted,
        RunState.hasFailed, List.length_pos]
    · simp [applyCompletion, hp, RunState.markStepFailed, RunState.hasFailed,
        List.length_pos, insertSet_ne_nil s.failed payload.stepId]
  · intro hf
    simp only [processTaskCompleted] at hrun
    rw [if_pos hf] at hrun
    simp only [Prod.mk.injEq] at hrun
    obtain ⟨hs', hts⟩ := hrun
    subst hs'
    subst hts
    exact ⟨rfl, rfl, rfl, rfl⟩
  · intro hf hc
    have hf' : ¬((applyCompletion s payload outs).hasFailed = true) := by
      rw [hf]
      simp
    simp only [processTaskCompleted] at hrun
    rw [if_neg hf', if_pos hc] at hrun
    simp only [Prod.mk.injEq] at hrun
    obtain ⟨hs', hts⟩ := hrun
    subst hs'
    subst hts
    exact ⟨rfl, rfl, rfl⟩
  · intro hf hc
    have hf' : ¬((applyCompletion s payload outs).hasFailed = true) := by
      rw [hf]
      simp
    have hc' : ¬((applyCompletion s payload outs).isComplete = true) := by
      rw [hc]
      simp
    simp only [processTaskCompleted] at hrun
    rw [if_neg hf', if_neg hc'] at hrun
    simp only [dispatchReadySteps] at hrun
    obtain ⟨hfr, hft⟩ := dispatchFold_spec texec cond newTaskId
      ((applyCompletion s payload outs).getReadySteps).1
      ((applyCompletion s payload outs).getReadySteps).2 []
    rw [hrun] at hfr hft
    constructor
    · have : (s', ts).1.run =
          ((applyCompletion s payload outs).getReadySteps).2.run := hfr
      rw [getReadySteps_run, applyCompletion_run] at this
      exact this
    · intro t ht
      rcases hft t ht with h0 | hok
      · cases h0
      · obtain ⟨a, b, c, d⟩ := hok
        refine ⟨a, b, ?_, d⟩
        rw [c, getReadySteps_run, applyCompletion_run]
  · intro hf
    have hnil : (applyCompletion s payload outs).failed = [] := by
      simp only [RunState.hasFailed, decide_eq_false_iff_not, Nat.not_lt,
        Nat.le_zero, List.length_eq_zero] at hf
      exact hf
    simp only [RunState.isComplete, hnil]
    have : ∀ x : String, ([] : List String).contains x = false := fun _ => rfl
    simp only [this, Bool.or_false]

/-- C2 witness: on the linear `A → B → C` flow with `A` running, the
event "A failed with boom" finalizes the run FAILED with the message
`"steps failed: [A]"` and creates no task. -/
theorem c2_taskCompleted_finalization_witness :
    (processTaskCompleted failingExec trueCond mkTaskId c2state c2failPayload
        none).1.run.status = RunStatus.failed ∧
    (processTaskCompleted failingExec trueCond mkTaskId c2state c2failPayload
        none).1.run.error = "steps failed: [A]" ∧
    (processTaskCompleted failingExec trueCond mkTaskId c2state c2failPayload
        none).2 = [] := by
  obtain ⟨-, h2, -, -, -⟩ :=
    c2_taskCompleted_finalization failingExec trueCond mkTaskId c2state
      c2failPayload none _ _ rfl
  obtain ⟨ha, hb, -, hd⟩ := h2 rfl
  exact ⟨ha, hb.trans rfl, hd⟩

/-- `isOkE` on a success. -/
theorem isOkE_ok {ε α : Type} (x : α) : isOkE (.ok x : Except ε α) = true :=
  rfl

/-- `isOkE` on a failure. -/
theorem isOkE_err {ε α : Type} (e : ε) :
    isOkE (.error e : Except ε α) = false := rfl

/-- Nothing is fresh to prove on an empty id list. -/
theorem freshFor_nil (ids : List String) : freshFor [] ids :=
  ⟨List.nodup_nil, by simp⟩

/-- Freshness of a cons. -/
theorem freshFor_cons (x : String) (l ids : List String) :
    freshFor (x :: l) ids ↔ x ∉ ids ∧ x ∉ l ∧ freshFor l ids := by
  simp only [freshFor, List.nodup_cons, List.mem_cons]
  constructor
  · rintro ⟨⟨hxl, hnd⟩, hmem⟩
    exact ⟨hmem x (.inl rfl), hxl, hnd, fun i hi => hmem i (.inr hi)⟩
  · rintro ⟨hxi, hxl, hnd, hmem⟩
    refine ⟨⟨hxl, hnd⟩, ?_⟩
    rintro i (rfl | hi)
    · exact hxi
    · exact hmem i hi

/-- Freshness of a singleton. -/
theorem freshFor_singleton (x : String) (ids : List String) :
    freshFor [x] ids ↔ x ∉ ids := by
  rw [freshFor_cons]
  simp [freshFor_nil]

/-- Freshness decomposes over append the way sequential validation
accumulates ids. -/
theorem freshFor_append (l1 l2 ids : List String) :
    freshFor (l1 ++ l2) ids ↔ freshFor l1 ids ∧ freshFor l2 (ids ++ l1) := by
  simp only [freshFor, List.nodup_append, List.mem_append]
  constructor
  · rintro ⟨⟨h1, h2, hd⟩, hmem⟩
    refine ⟨⟨h1, fun i hi => hmem i (.inl hi)⟩, h2, ?_⟩
    intro i hi
    rintro (ha | hb)
    · exact hmem i (.inr hi) ha
    · exact hd hb hi
  · rintro ⟨⟨h1, hm1⟩, h2, hm2⟩
    refine ⟨⟨h1, h2, ?_⟩, ?_⟩
    · intro a ha hb
      exact hm2 a hb (.inr ha)
    · intro i hi
      rcases hi with ha | hb
      · exact hm1 i ha
      · exact fun hin => hm2 i hb (.inl hin)

/-- Membership in a set insertion. -/
theorem mem_insertSet (xs : List String) (x y : String) :
    y ∈ insertSet xs x ↔ y ∈ xs ∨ y = x := by
  unfold insertSet
  split
  · rename_i hc
    have hx : x ∈ xs := by simpa using hc
    constructor
    · exact fun h => .inl h
    · rintro (h | rfl)
      · exact h
      · exact hx
  · simp

/-- Membership in a set deletion. -/
theorem mem_removeSet (xs : List String) (x y : String) :
    y ∈ removeSet xs x ↔ y ∈ xs ∧ y ≠ x := by
  simp [removeSet]

/-- Deleting an absent element is a no-op. -/
theorem removeSet_not_mem (xs : List String) (x : String) (h : x ∉ xs) :
    removeSet xs x = xs := by
  unfold removeSet
  apply List.filter_eq_self.mpr
  intro a ha
  have hne : a ≠ x := fun he => h (he ▸ ha)
  simpa using hne

/-- Restoring and driving the same task list from agreeing states leaves
agreeing states, provided no listed step is already running and the step
ids are distinct (both hold for a run's persisted tasks on a fresh state:
one task per step). -/
theorem restore_drive_agree :
    ∀ (ts : List Task) (s1 s2 : RunState), stateAgrees s1 s2 →
      (∀ t ∈ ts, t.stepId ∉ s2.running) →
      (ts.map Task.stepId).Nodup →
      stateAgrees (restoreFromTasks s1 ts) (driveTasks s2 ts) := by
  intro ts
  induction ts with
  | nil =>
      intro s1 s2 h _ _
      exact h
  | cons t rest ih =>
      intro s1 s2 hag hnr hnd
      obtain ⟨hr, hd, hc, hcomp, hrun, hfail⟩ := hag
      rw [List.map_cons] at hnd
      have hmem : t.stepId ∉ s2.running := hnr t (List.mem_cons_self t rest)
      simp only [restoreFromTasks, driveTasks, List.foldl_cons] at ih ⊢
      apply ih
      · cases ht : t.status with
        | queued =>
            simp only [restoreStep, driveTaskTransition, ht, stateAgrees]
            exact ⟨hr, hd, hc, hcomp, hrun, hfail⟩
        | running =>
            simp only [restoreStep, driveTaskTransition, ht,
              RunState.markStepRunning, stateAgrees]
            refine ⟨hr, hd, hc, hcomp, ?_, hfail⟩
            rw [hrun]
        | succeeded =>
            simp only [restoreStep, driveTaskTransition, ht,
              RunState.markStepCompleted, stateAgrees]
            refine ⟨hr, hd, ?_, ?_, ?_, hfail⟩
            · rw [hc]
            · rw [hcomp]
            · rw [hrun]
              exact (removeSet_not_mem _ _ hmem).symm
        | failed =>
            simp only [restoreStep, driveTaskTransition, ht,
              RunState.markStepFailed, stateAgrees]
            refine ⟨hr, hd, ?_, hcomp, ?_, ?_⟩
            · rw [hc]
            · rw [hrun]
              exact (removeSet_not_mem _ _ hmem).symm
            · rw [hfail]
      · intro t' ht'
        have hnr' := hnr t' (List.mem_cons_of_mem t ht')
        have hne : t'.stepId ≠ t.stepId := by
          have hh := (List.nodup_cons.mp hnd).1
          intro he
          exact hh (he ▸ List.mem_map_of_mem Task.stepId ht')
        cases ht : t.status with
        | queued => simpa [driveTaskTransition, ht] using hnr'
        | running =>
            simp only [driveTaskTransition, ht, RunState.markStepRunning]
            intro hmem2
            rcases (mem_insertSet _ _ _).mp hmem2 with h1 | h2
            · exact hnr' h1
            · exact hne h2
        | succeeded =>
            simp only [driveTaskTransition, ht, RunState.markStepCompleted]
            intro hmem2
            exact hnr' ((mem_removeSet _ _ _).mp hmem2).1
        | failed =>
            simp only [driveTaskTransition, ht, RunState.markStepFailed]
            intro hmem2
            exact hnr' ((mem_removeSet _ _ _).mp hmem2).1
      · exact (List.nodup_cons.mp hnd).2

/-- C8: restoring a fresh run state from the run's persisted tasks (one
task per step, nothing marked running yet) yields the same completed,
running and failed sets, the same per-step render context and the same
run and DAG as driving the same task status transitions on the fresh
state from scratch; consequently the next `GetReadySteps` call returns
the same ready nodes and absorbs the same join nodes into `completed` on
both sides. -/
theorem c8_restoreFromTasks_roundtrip (s : RunState) (ts : List Task)
    (hfresh : s.running = []) (hnd : (ts.map Task.stepId).Nodup) :
    (restoreFromTasks s ts).completed = (driveTasks s ts).completed ∧
    (restoreFromTasks s ts).running = (driveTasks s ts).running ∧
    (restoreFromTasks s ts).failed = (driveTasks s ts).failed ∧
    (restoreFromTasks s ts).ctx = (driveTasks s ts).ctx ∧
    (restoreFromTasks s ts).run = (driveTasks s ts).run ∧
    (restoreFromTasks s ts).dag = (driveTasks s ts).dag ∧
    ((restoreFromTasks s ts).getReadySteps).1 =
      ((driveTasks s ts).getReadySteps).1 ∧
    ((restoreFromTasks s ts).getReadySteps).2.completed =
      ((driveTasks s ts).getReadySteps).2.completed := by
  have hag := restore_drive_agree ts s s ⟨rfl, rfl, rfl, rfl, rfl, rfl⟩
    (by
      intro t ht
      rw [hfresh]
      exact List.not_mem_nil _) hnd
  obtain ⟨hr, hd, hc, hcomp, hrun, hfail⟩ := hag
  have hready : getReadyNodes (restoreFromTasks s ts).dag
      (restoreFromTasks s ts).completed (restoreFromTasks s ts).running =
      getReadyNodes (driveTasks s ts).dag (driveTasks s ts).completed
        (driveTasks s ts).running := by
    rw [hd, hcomp, hrun]
  refine ⟨hcomp, hrun, hfail, hc, hr, hd, ?_, ?_⟩
  · simp only [RunState.getReadySteps]
    rw [hready]
  · simp only [RunState.getReadySteps]
    rw [hready]

/-- C8 witness: the round trip evaluated on the linear flow with `A`
succeeded (outputs `\x7bx: 1\x7d`) and `B` still running. -/
theorem c8_restoreFromTasks_roundtrip_witness :
    c8state.running = [] ∧ (c8tasks.map Task.stepId).Nodup ∧
    (restoreFromTasks c8state c8tasks).completed =
      (driveTasks c8state c8tasks).completed ∧
    (restoreFromTasks c8state c8tasks).running =
      (driveTasks c8state c8tasks).running ∧
    (restoreFromTasks c8state c8tasks).ctx =
      (driveTasks c8state c8tasks).ctx := by
  obtain ⟨h1, h2, -, h4, -, -, -, -⟩ :=
    c8_restoreFromTasks_roundtrip c8state c8tasks rfl (by decide)
  exact ⟨rfl, by decide, h1, h2, h4⟩

/-- Bool membership test versus membership. -/
theorem contains_eq_mem (l : List String) (x : String) :
    l.contains x = true ↔ x ∈ l := by simp


/-- A negated boolean negation. -/
theorem not_bang_eq (b : Bool) (h : ¬((!b) = true)) : b = true := by
  cases b
  · exact absurd rfl h
  · rfl

/-- Failed membership test to non-membership. -/
theorem not_contains_not_mem (l : List String) (x : String)
    (h : ¬(l.contains x = true)) : x ∉ l :=
  fun hm => h ((contains_eq_mem _ _).mpr hm)

/-- Success and trace characterization of the mutual step validator: a
call succeeds exactly when every visited (fully-qualified id, step) pair
satisfies the per-entry conditions and the visited ids are mutually
distinct and new, and on success the returned id list is the input list
extended by the visited ids in order. -/
theorem validateStep_spec :
    (∀ (fq : String) (s : StepDef) (ids : List String),
      (∀ r, validateStep fq s ids = .ok r →
        r = ids ++ (flatStep fq s).map Prod.fst) ∧
      (isOkE (validateStep fq s ids) = true ↔
        (∀ p ∈ flatStep fq s, entryOk p) ∧
        freshFor ((flatStep fq s).map Prod.fst) ids)) ∧
    (∀ (fq : String) (bs : List Branch) (brIds ids : List String),
      (∀ r, validateBranches fq bs brIds ids = .ok r →
        r = ids ++ (flatBranches fq bs).map Prod.fst) ∧
      (isOkE (validateBranches fq bs brIds ids) = true ↔
        (∀ b ∈ bs, b.id ≠ "" ∧ b.steps ≠ []) ∧
        (bs.map Branch.id).Nodup ∧
        (∀ b ∈ bs, b.id ∉ brIds) ∧
        (∀ p ∈ flatBranches fq bs, entryOk p) ∧
        freshFor ((flatBranches fq bs).map Prod.fst) ids)) ∧
    (∀ (fq brId : String) (bsteps : List StepDef) (ids : List String),
      (∀ r, validateBranchSteps fq brId bsteps ids = .ok r →
        r = ids ++ (flatBranchSteps fq brId bsteps).map Prod.fst) ∧
      (isOkE (validateBranchSteps fq brId bsteps ids) = true ↔
        (∀ p ∈ flatBranchSteps fq brId bsteps, entryOk p) ∧
        freshFor ((flatBranchSteps fq brId bsteps).map Prod.fst) ids)) := by
  apply validateStep.mutual_induct
  -- Case 1: empty fully-qualified id.
  · intro id name ty deps condition config retry branches ids
    have hval : validateStep "" (.mk id name ty deps condition config retry
        branches) ids = .error ⟨"", "id", .emptyStepID⟩ := by
      simp only [validateStep]
      rw [if_pos True.intro]
    constructor
    · intro r h
      rw [hval] at h
      exact Except.noConfusion h
    · rw [hval, isOkE_err]
      simp only [Bool.false_eq_true, false_iff]
      rintro ⟨hok, -⟩
      have h := hok ("", .mk id name ty deps condition config retry branches)
        (by simp [flatStep])
      exact h.1 rfl
  -- Case 2: duplicate fully-qualified id.
  · intro fq id name ty deps condition config retry branches ids h1 h2
    have hval : validateStep fq (.mk id name ty deps condition config retry
        branches) ids = .error ⟨fq, "id", .duplicateStepID⟩ := by
      simp only [validateStep]
      rw [if_neg h1, if_pos h2]
    constructor
    · intro r h
      rw [hval] at h
      exact Except.noConfusion h
    · rw [hval, isOkE_err]
      simp only [Bool.false_eq_true, false_iff]
      rintro ⟨-, hfresh⟩
      have hmem : fq ∈ (flatStep fq (.mk id name ty deps condition config
          retry branches)).map Prod.fst := by simp [flatStep]
      exact hfresh.2 fq hmem ((contains_eq_mem _ _).mp h2)
  -- Case 3: empty type.
  · intro fq id name deps condition config retry branches ids h1 h2
    have hval : validateStep fq (.mk id name "" deps condition config retry
        branches) ids = .error ⟨fq, "type", .unknownStepType⟩ := by
      simp only [validateStep]
      rw [if_neg h1, if_neg h2, if_pos True.intro]
    constructor
    · intro r h
      rw [hval] at h
      exact Except.noConfusion h
    · rw [hval, isOkE_err]
      simp only [Bool.false_eq_true, false_iff]
      rintro ⟨hok, -⟩
      have h := hok (fq, .mk id name "" deps condition config retry branches)
        (by simp [flatStep])
      have h2' := h.2.1
      simp [StepDef.type, validStepTypes] at h2'
  -- Case 4: unknown type.
  · intro fq id name ty deps condition config retry branches ids h1 h2 h3 h4
    have hval : validateStep fq (.mk id name ty deps condition config retry
        branches) ids = .error ⟨fq, "type", .unknownStepType⟩ := by
      simp only [validateStep]
      rw [if_neg h1, if_neg h2, if_neg h3, if_pos h4]
    constructor
    · intro r h
      rw [hval] at h
      exact Except.noConfusion h
    · rw [hval, isOkE_err]
      simp only [Bool.false_eq_true, false_iff]
      rintro ⟨hok, -⟩
      have h := hok (fq, .mk id name ty deps condition config retry branches)
        (by simp [flatStep])
      have hnot : ty ∉ validStepTypes := by simpa using h4
      exact hnot h.2.1
  -- Case 5: self-dependency.
  · intro fq id name ty deps condition config retry branches ids h1 h2 h3 h4
      h5
    have hval : validateStep fq (.mk id name ty deps condition config retry
        branches) ids = .error ⟨fq, "depends_on", .selfDependency⟩ := by
      simp only [validateStep]
      rw [if_neg h1, if_neg h2, if_neg h3, if_neg h4, if_pos h5]
    constructor
    · intro r h
      rw [hval] at h
      exact Except.noConfusion h
    · rw [hval, isOkE_err]
      simp only [Bool.false_eq_true, false_iff]
      rintro ⟨hok, -⟩
      have h := hok (fq, .mk id name ty deps condition config retry branches)
        (by simp [flatStep])
      exact h.2.2.1 ((contains_eq_mem _ _).mp h5)
  -- Case 6: parallel step without branches.
  · intro fq id name deps condition config retry branches ids h1 h2 h5 hemp
      h3p h4p
    have hval : validateStep fq (.mk id name "parallel" deps condition config
        retry branches) ids = .error ⟨fq, "branches", .emptyBranches⟩ := by
      simp only [validateStep]
      rw [if_neg h1, if_neg h2, if_neg h3p, if_neg h4p, if_neg h5,
        if_pos True.intro, if_pos hemp]
    constructor
    · intro r h
      rw [hval] at h
      exact Except.noConfusion h
    · rw [hval, isOkE_err]
      simp only [Bool.false_eq_true, false_iff]
      rintro ⟨hok, -⟩
      have h := hok (fq, .mk id name "parallel" deps condition config retry
        branches) (by simp [flatStep])
      have hnil : branches = [] := by simpa using hemp
      exact (h.2.2.2 rfl).1 hnil
  -- Case 7: parallel step, branch validation.
  · intro fq id name deps condition config retry branches ids h1 h2 ids1 h5 h6
      h3p h4p IH2
    obtain ⟨ih2a, ih2b⟩ := IH2
    have hval : validateStep fq (.mk id name "parallel" deps condition config
        retry branches) ids = validateBranches fq branches [] (ids ++ [fq]) := by
      simp only [validateStep]
      rw [if_neg h1, if_neg h2, if_neg h3p, if_neg h4p, if_neg h5,
        if_pos True.intro, if_neg h6]
    have hflat : flatStep fq (.mk id name "parallel" deps condition config
        retry branches) = (fq, .mk id name "parallel" deps condition config
        retry branches) :: flatBranches fq branches := by
      simp [flatStep]
    have hnotin : fq ∉ ids := not_contains_not_mem _ _ h2
    have hbne : branches ≠ [] := by simpa using h6
    have hdeps : fq ∉ deps := not_contains_not_mem _ _ h5
    constructor
    · intro r h
      rw [hval] at h
      have hthis : r = (ids ++ [fq]) ++
          (flatBranches fq branches).map Prod.fst := ih2a r h
      rw [hflat, hthis]
      simp
    · rw [hval, hflat]
      constructor
      · intro hok
        obtain ⟨hb, hnd, -, hall, hfresh⟩ := ih2b.mp hok
        have hfresh' : freshFor ((flatBranches fq branches).map Prod.fst)
            (ids ++ [fq]) := hfresh
        constructor
        · rintro p hp
          rcases List.mem_cons.mp hp with rfl | hp2
          · exact ⟨h1, by simp [StepDef.type, validStepTypes], hdeps,
              fun _ => ⟨hbne, hb, hnd⟩⟩
          · exact hall p hp2
        · simp only [List.map_cons]
          rw [freshFor_cons]
          refine ⟨hnotin, ?_, ?_⟩
          · intro hm
            exact hfresh'.2 fq hm (by simp)
          · exact ⟨hfresh'.1, fun i hi hin =>
              hfresh'.2 i hi (List.mem_append_left _ hin)⟩
      · rintro ⟨hall, hfreshc⟩
        have hhead := hall _ (List.mem_cons_self _ _)
        obtain ⟨-, hb, hnd⟩ := hhead.2.2.2 rfl
        simp only [List.map_cons] at hfreshc
        rw [freshFor_cons] at hfreshc
        obtain ⟨-, hfq_flat, hfreshB⟩ := hfreshc
        apply ih2b.mpr
        refine ⟨hb, hnd, by simp,
          fun p hp => hall p (List.mem_cons_of_mem _ hp), ?_⟩
        show freshFor ((flatBranches fq branches).map Prod.fst) (ids ++ [fq])
        refine ⟨hfreshB.1, ?_⟩
        intro i hi hmem
        rcases List.mem_append.mp hmem with ha | hb2
        · exact hfreshB.2 i hi ha
        · have hieq : i = fq := by simpa using hb2
          exact hfq_flat (hieq ▸ hi)
  -- Case 8: ordinary step, success.
  · intro fq id name ty deps condition config retry branches ids h1 h2 h3 h4
      h5 h6
    have hval : validateStep fq (.mk id name ty deps condition config retry
        branches) ids = .ok (ids ++ [fq]) := by
      simp only [validateStep]
      rw [if_neg h1, if_neg h2, if_neg h3, if_neg h4, if_neg h5, if_neg h6]
    have hflat : flatStep fq (.mk id name ty deps condition config retry
        branches) = [(fq, .mk id name ty deps condition config retry
        branches)] := by
      simp [flatStep, h6]
    constructor
    · intro r h
      rw [hval] at h
      injection h with h
      rw [hflat, ← h]
      simp
    · rw [hval, isOkE_ok, hflat]
      simp only [List.map_cons, List.map_nil]
      constructor
      · intro _
        refine ⟨?_, ?_⟩
        · rintro p hp
          rcases List.mem_cons.mp hp with rfl | hp2
          · exact ⟨h1, (contains_eq_mem _ _).mp (not_bang_eq _ h4),
              not_contains_not_mem _ _ h5, fun hpar => absurd hpar h6⟩
          · exact absurd hp2 (List.not_mem_nil _)
        · rw [freshFor_singleton]
          exact not_contains_not_mem _ _ h2
      · intro _
        trivial
  -- Case 9: no branches left.
  · intro fq brIds ids
    constructor
    · intro r h
      simp only [validateBranches] at h
      injection h with h
      rw [← h]
      simp [flatBranches]
    · simp only [validateBranches, isOkE_ok, flatBranches]
      constructor
      · intro _
        exact ⟨by simp, by simp, by simp, by simp,
          by simpa using freshFor_nil ids⟩
      · intro _
        trivial
  -- Case 10: empty branch id.
  · intro fq brSteps rest brIds ids
    have hval : validateBranches fq (.mk "" brSteps :: rest) brIds ids =
        .error ⟨fq, "branches", .emptyBranchID⟩ := by
      simp only [validateBranches]
      rw [if_pos True.intro]
    constructor
    · intro r h
      rw [hval] at h
      exact Except.noConfusion h
    · rw [hval, isOkE_err]
      simp only [Bool.false_eq_true, false_iff]
      rintro ⟨hb, -, -, -, -⟩
      exact (hb (.mk "" brSteps) (List.mem_cons_self _ _)).1 rfl
  -- Case 11: duplicate branch id.
  · intro fq brId brSteps rest brIds ids h1 h2
    have hval : validateBranches fq (.mk brId brSteps :: rest) brIds ids =
        .error ⟨fq, "branches", .duplicateBranchID⟩ := by
      simp only [validateBranches]
      rw [if_neg h1, if_pos h2]
    constructor
    · intro r h
      rw [hval] at h
      exact Except.noConfusion h
    · rw [hval, isOkE_err]
      simp only [Bool.false_eq_true, false_iff]
      rintro ⟨-, -, hbr, -, -⟩
      exact hbr (.mk brId brSteps) (List.mem_cons_self _ _)
        ((contains_eq_mem _ _).mp h2)
  -- Case 12: branch without steps.
  · intro fq brId brSteps rest brIds ids h1 h2 h3
    have hval : validateBranches fq (.mk brId brSteps :: rest) brIds ids =
        .error ⟨fq, "branches", .emptyBranchSteps⟩ := by
      simp only [validateBranches]
      rw [if_neg h1, if_neg h2, if_pos h3]
    constructor
    · intro r h
      rw [hval] at h
      exact Except.noConfusion h
    · rw [hval, isOkE_err]
      simp only [Bool.false_eq_true, false_iff]
      rintro ⟨hb, -, -, -, -⟩
      exact (hb (.mk brId brSteps) (List.mem_cons_self _ _)).2
        (by simpa using h3)
  -- Case 13: branch accepted, recurse.
  · intro fq brId brSteps rest brIds ids h1 h2 h3 IH3 IH2r
    obtain ⟨ih3a, ih3b⟩ := IH3
    have hflat : flatBranches fq (.mk brId brSteps :: rest) =
        flatBranchSteps fq brId brSteps ++ flatBranches fq rest := by
      simp [flatBranches]
    have hbne : brSteps ≠ [] := by simpa using h3
    have hbrnotin : brId ∉ brIds := not_contains_not_mem _ _ h2
    cases hbs : validateBranchSteps fq brId brSteps ids with
    | error e =>
        have hval : validateBranches fq (.mk brId brSteps :: rest) brIds ids =
            .error e := by
          simp only [validateBranches]
          rw [if_neg h1, if_neg h2, if_neg h3, hbs]
          rfl
        constructor
        · intro r h
          rw [hval] at h
          exact Except.noConfusion h
        · rw [hval, isOkE_err]
          simp only [Bool.false_eq_true, false_iff]
          rintro ⟨-, -, -, hall, hfresh⟩
          rw [hflat] at hall hfresh
          simp only [List.map_append] at hfresh
          rw [freshFor_append] at hfresh
          have hokhead : isOkE (validateBranchSteps fq brId brSteps ids) =
              true :=
            ih3b.mpr ⟨fun p hp => hall p (List.mem_append_left _ hp),
              hfresh.1⟩
          rw [hbs, isOkE_err] at hokhead
          exact Bool.noConfusion hokhead
    | ok ids2 =>
        have hval : validateBranches fq (.mk brId brSteps :: rest) brIds ids =
            validateBranches fq rest (brIds ++ [brId]) ids2 := by
          simp only [validateBranches]
          rw [if_neg h1, if_neg h2, if_neg h3, hbs]
          rfl
        have hids2 : ids2 = ids ++
            (flatBranchSteps fq brId brSteps).map Prod.fst := ih3a ids2 hbs
        have hokhead := ih3b.mp (by rw [hbs]; rfl)
        obtain ⟨ih2a, ih2b⟩ := IH2r ids2
        constructor
        · intro r h
          rw [hval] at h
          have hr := ih2a r h
          rw [hr, hids2, hflat]
          simp [List.append_assoc]
        · rw [hval]
          constructor
          · intro hok
            obtain ⟨hbR, hndR, hbrR, hallR, hfreshR⟩ := ih2b.mp hok
            refine ⟨?_, ?_, ?_, ?_, ?_⟩
            · rintro b hb2
              rcases List.mem_cons.mp hb2 with rfl | hmem
              · exact ⟨h1, hbne⟩
              · exact hbR b hmem
            · simp only [List.map_cons]
              rw [List.nodup_cons]
              constructor
              · intro hmem
                obtain ⟨b, hbmem, hbid⟩ := List.mem_map.mp hmem
                exact hbrR b hbmem (by rw [hbid]; simp [Branch.id])
              · exact hndR
            · rintro b hb2
              rcases List.mem_cons.mp hb2 with rfl | hmem
              · exact hbrnotin
              · intro hin
                exact hbrR b hmem (List.mem_append_left _ hin)
            · rw [hflat]
              rintro p hp
              rcases List.mem_append.mp hp with hleft | hright
              · exact hokhead.1 p hleft
              · exact hallR p hright
            · rw [hflat]
              simp only [List.map_append]
              rw [freshFor_append]
              refine ⟨hokhead.2, ?_⟩
              rw [hids2] at hfreshR
              exact hfreshR
          · rintro ⟨hbC, hndC, hbrC, hallC, hfreshC⟩
            apply ih2b.mpr
            rw [hflat] at hallC hfreshC
            simp only [List.map_append] at hfreshC
            rw [freshFor_append] at hfreshC
            simp only [List.map_cons] at hndC
            refine ⟨fun b hb2 => hbC b (List.mem_cons_of_mem _ hb2), ?_, ?_,
              fun p hp => hallC p (List.mem_append_right _ hp), ?_⟩
            · exact (List.nodup_cons.mp hndC).2
            · intro b hb2 hin
              rcases List.mem_append.mp hin with ha | hcontra
              · exact hbrC b (List.mem_cons_of_mem _ hb2) ha
              · have hbid : b.id = brId := by simpa using hcontra
                have hmm : brId ∈ rest.map Branch.id := by
                  rw [← hbid]
                  exact List.mem_map_of_mem Branch.id hb2
                exact (List.nodup_cons.mp hndC).1 hmm
            · rw [hids2]
              exact hfreshC.2
  -- Case 14: no branch steps left.
  · intro fq brId ids
    constructor
    · intro r h
      simp only [validateBranchSteps] at h
      injection h with h
      rw [← h]
      simp [flatBranchSteps]
    · simp only [validateBranchSteps, isOkE_ok, flatBranchSteps]
      constructor
      · intro _
        exact ⟨by simp, by simpa using freshFor_nil ids⟩
      · intro _
        trivial
  -- Case 15: validate one branch step, recurse.
  · intro fq brId bstep rest ids IH1 IHr
    obtain ⟨ih1a, ih1b⟩ := IH1
    have hflat : flatBranchSteps fq brId (bstep :: rest) =
        flatStep (fq ++ "." ++ brId ++ "." ++ bstep.id) bstep ++
          flatBranchSteps fq brId rest := by
      simp [flatBranchSteps]
    cases hs : validateStep (fq ++ "." ++ brId ++ "." ++ bstep.id) bstep ids
      with
    | error e =>
        have hval : validateBranchSteps fq brId (bstep :: rest) ids =
            .error e := by
          simp only [validateBranchSteps]
          rw [hs]
          rfl
        constructor
        · intro r h
          rw [hval] at h
          exact Except.noConfusion h
        · rw [hval, isOkE_err]
          simp only [Bool.false_eq_true, false_iff]
          rintro ⟨hall, hfresh⟩
          rw [hflat] at hall hfresh
          simp only [List.map_append] at hfresh
          rw [freshFor_append] at hfresh
          have hok1 : isOkE (validateStep (fq ++ "." ++ brId ++ "." ++
              bstep.id) bstep ids) = true :=
            ih1b.mpr ⟨fun p hp => hall p (List.mem_append_left _ hp),
              hfresh.1⟩
          rw [hs, isOkE_err] at hok1
          exact Bool.noConfusion hok1
    | ok ids2 =>
        have hval : validateBranchSteps fq brId (bstep :: rest) ids =
            validateBranchSteps fq brId rest ids2 := by
          simp only [validateBranchSteps]
          rw [hs]
          rfl
        have hids2 : ids2 = ids ++ (flatStep (fq ++ "." ++ brId ++ "." ++
            bstep.id) bstep).map Prod.fst := ih1a ids2 hs
        have hok1 := ih1b.mp (by rw [hs]; rfl)
        obtain ⟨ihra, ihrb⟩ := IHr ids2
        constructor
        · intro r h
          rw [hval] at h
          have hr := ihra r h
          rw [hr, hids2, hflat]
          simp [List.append_assoc]
        · rw [hval]
          constructor
          · intro hok
            obtain ⟨hallR, hfreshR⟩ := ihrb.mp hok
            rw [hflat]
            constructor
            · rintro p hp
              rcases List.mem_append.mp hp with hl | hr2
              · exact hok1.1 p hl
              · exact hallR p hr2
            · simp only [List.map_append]
              rw [freshFor_append]
              refine ⟨hok1.2, ?_⟩
              rw [hids2] at hfreshR
              exact hfreshR
          · rintro ⟨hallC, hfreshC⟩
            apply ihrb.mpr
            rw [hflat] at hallC hfreshC
            simp only [List.map_append] at hfreshC
            rw [freshFor_append] at hfreshC
            refine ⟨fun p hp => hallC p (List.mem_append_right _ hp), ?_⟩
            rw [hids2]
            exact hfreshC.2

/-- The steps visited by `flatStep` do not depend on the qualification
prefix (only the recorded fully-qualified ids do). -/
theorem flat_snd_spec :
    (∀ (fq : String) (s : StepDef), ∀ fq2,
      (flatStep fq s).map Prod.snd = (flatStep fq2 s).map Prod.snd) ∧
    (∀ (fq : String) (bs : List Branch), ∀ fq2,
      (flatBranches fq bs).map Prod.snd =
        (flatBranches fq2 bs).map Prod.snd) ∧
    (∀ (fq brId : String) (bsteps : List StepDef), ∀ fq2 brId2,
      (flatBranchSteps fq brId bsteps).map Prod.snd =
        (flatBranchSteps fq2 brId2 bsteps).map Prod.snd) := by
  apply flatStep.mutual_induct
  · intro fq n1 n2 ty deps c cfg rp branches ih fq2
    by_cases hty : ty = "parallel"
    · simp only [flatStep, if_pos hty, List.map_cons]
      rw [ih fq2]
    · simp only [flatStep, if_neg hty, List.map_cons]
  · intro fq fq2
    rfl
  · intro fq brId brSteps rest ih1 ih2 fq2
    simp only [flatBranches, List.map_append]
    rw [ih1 fq2 brId, ih2 fq2]
  · intro fq brId fq2 brId2
    rfl
  · intro fq brId bs rest ih1 ih2 fq2 brId2
    simp only [flatBranchSteps, List.map_append]
    rw [ih1 (fq2 ++ "." ++ brId2 ++ "." ++ bs.id), ih2 fq2 brId2]

/-- Success characterization of the dependency validator: it accepts
exactly when every visited step's `depends_on` entries are all known
ids. -/
theorem validateDeps_spec :
    (∀ (s : StepDef) (ids : List String),
      (validateDepsStep s ids = .ok () ↔
        ∀ s2 ∈ (flatStep "" s).map Prod.snd, ∀ d ∈ s2.dependsOn,
          d ∈ ids)) ∧
    (∀ (bs : List Branch) (ids : List String),
      (validateDepsBranches bs ids = .ok () ↔
        ∀ s2 ∈ (flatBranches "" bs).map Prod.snd, ∀ d ∈ s2.dependsOn,
          d ∈ ids)) ∧
    (∀ (bsteps : List StepDef) (ids : List String),
      (validateDeps bsteps ids = .ok () ↔
        ∀ s2 ∈ (flatBranchSteps "" "" bsteps).map Prod.snd,
          ∀ d ∈ s2.dependsOn, d ∈ ids)) := by
  apply validateDepsStep.mutual_induct
  -- D1: an unknown dependency.
  · intro id name ty deps condition config retry branches ids val hfind
    have hval : validateDepsStep (.mk id name ty deps condition config retry
        branches) ids = .error ⟨id, "depends_on", .missingDependency⟩ := by
      simp only [validateDepsStep]
      rw [hfind]
    have hvmem : val ∈ deps := List.mem_of_find?_eq_some hfind
    have hvnot : val ∉ ids := by
      have hp := List.find?_some hfind
      simpa using hp
    constructor
    · intro h
      rw [hval] at h
      exact Except.noConfusion h
    · intro hall
      exact absurd (hall (.mk id name ty deps condition config retry branches)
        (by simp [flatStep]) val hvmem) hvnot
  -- D2: dependencies fine, recurse into the parallel branches.
  · intro id name deps condition config retry branches ids hfind IH2
    have hval : validateDepsStep (.mk id name "parallel" deps condition config
        retry branches) ids = validateDepsBranches branches ids := by
      simp only [validateDepsStep]
      rw [hfind]
      rfl
    have hdeps : ∀ d ∈ deps, d ∈ ids := by
      intro d hd
      have hq := List.find?_eq_none.mp hfind d hd
      simpa using hq
    rw [hval, IH2]
    constructor
    · intro h2 s2 hs2 d hd
      simp only [flatStep, if_pos rfl, List.map_cons, List.mem_cons] at hs2
      rcases hs2 with rfl | hs2
      · exact hdeps d hd
      · exact h2 s2 hs2 d hd
    · intro h1 s2 hs2 d hd
      refine h1 s2 ?_ d hd
      simp only [flatStep, if_pos rfl, List.map_cons, List.mem_cons]
      exact .inr hs2
  -- D3: dependencies fine, nothing else to visit.
  · intro id name ty deps condition config retry branches ids hfind hty
    have hval : validateDepsStep (.mk id name ty deps condition config retry
        branches) ids = .ok () := by
      simp only [validateDepsStep]
      rw [hfind, if_neg hty]
    have hdeps : ∀ d ∈ deps, d ∈ ids := by
      intro d hd
      have hq := List.find?_eq_none.mp hfind d hd
      simpa using hq
    rw [hval]
    constructor
    · intro _ s2 hs2 d hd
      simp only [flatStep, if_neg hty, List.map_cons, List.map_nil,
        List.mem_cons, List.not_mem_nil, or_false] at hs2
      subst hs2
      exact hdeps d hd
    · intro _
      rfl
  -- D4: no branches left.
  · intro ids
    constructor
    · intro _ s2 hs2 d hd
      simp [flatBranches] at hs2
    · intro _
      rfl
  -- D5: a branch's steps fail.
  · intro id brSteps rest ids e herr IH3
    have hval : validateDepsBranches (.mk id brSteps :: rest) ids =
        .error e := by
      simp only [validateDepsBranches]
      rw [herr]
    constructor
    · intro h
      rw [hval] at h
      exact Except.noConfusion h
    · intro hall
      exfalso
      have hok : validateDeps brSteps ids = .ok () := by
        rw [IH3]
        intro s2 hs2 d hd
        refine hall s2 ?_ d hd
        simp only [flatBranches, List.map_append, List.mem_append]
        left
        rw [flat_snd_spec.2.2 "" id brSteps "" ""]
        exact hs2
      rw [herr] at hok
      exact Except.noConfusion hok
  -- D6: a branch's steps pass, recurse.
  · intro id brSteps rest ids a hok3 IH3 IH2
    have hval : validateDepsBranches (.mk id brSteps :: rest) ids =
        validateDepsBranches rest ids := by
      simp only [validateDepsBranches]
      rw [hok3]
    have hbr : ∀ s2 ∈ (flatBranchSteps "" id brSteps).map Prod.snd,
        ∀ d ∈ s2.dependsOn, d ∈ ids := by
      intro s2 hs2 d hd
      have hok3' : validateDeps brSteps ids = .ok () := by
        cases a
        exact hok3
      refine IH3.mp hok3' s2 ?_ d hd
      rw [flat_snd_spec.2.2 "" "" brSteps "" id]
      exact hs2
    rw [hval, IH2]
    constructor
    · intro h2 s2 hs2 d hd
      simp only [flatBranches, List.map_append, List.mem_append] at hs2
      rcases hs2 with hl | hr
      · exact hbr s2 hl d hd
      · exact h2 s2 hr d hd
    · intro h1 s2 hs2 d hd
      refine h1 s2 ?_ d hd
      simp only [flatBranches, List.map_append, List.mem_append]
      exact .inr hs2
  -- D7: no branch steps left.
  · intro ids
    constructor
    · intro _ s2 hs2 d hd
      simp [flatBranchSteps] at hs2
    · intro _
      rfl
  -- D8: a branch step's dependencies fail.
  · intro bstep rest ids e herr IH1
    have hval : validateDeps (bstep :: rest) ids = .error e := by
      simp only [validateDeps]
      rw [herr]
    constructor
    · intro h
      rw [hval] at h
      exact Except.noConfusion h
    · intro hall
      exfalso
      have hok : validateDepsStep bstep ids = .ok () := by
        rw [IH1]
        intro s2 hs2 d hd
        refine hall s2 ?_ d hd
        simp only [flatBranchSteps, List.map_append, List.mem_append]
        left
        rw [flat_snd_spec.1 ("" ++ "." ++ "" ++ "." ++ bstep.id) bstep ""]
        exact hs2
      rw [herr] at hok
      exact Except.noConfusion hok
  -- D9: a branch step's dependencies pass, recurse.
  · intro bstep rest ids a hok1 IH1 IHr
    have hval : validateDeps (bstep :: rest) ids = validateDeps rest ids := by
      simp only [validateDeps]
      rw [hok1]
    have hok1' : validateDepsStep bstep ids = .ok () := by
      cases a
      exact hok1
    have hhead : ∀ s2 ∈ (flatStep ("" ++ "." ++ "" ++ "." ++ bstep.id)
        bstep).map Prod.snd, ∀ d ∈ s2.dependsOn, d ∈ ids := by
      intro s2 hs2 d hd
      refine IH1.mp hok1' s2 ?_ d hd
      rw [flat_snd_spec.1 "" bstep ("" ++ "." ++ "" ++ "." ++ bstep.id)]
      exact hs2
    rw [hval, IHr]
    constructor
    · intro h2 s2 hs2 d hd
      simp only [flatBranchSteps, List.map_append, List.mem_append] at hs2
      rcases hs2 with hl | hr
      · exact hhead s2 hl d hd
      · exact h2 s2 hr d hd
    · intro h1 s2 hs2 d hd
      refine h1 s2 ?_ d hd
      simp only [flatBranchSteps, List.map_append, List.mem_append]
      exact .inr hs2

/-- Success characterization of the top-level step loop of `Validate`. -/
theorem validateSteps_spec (steps : List StepDef) : ∀ ids : List String,
    (∀ r, validateSteps steps ids = .ok r →
      r = ids ++ (steps.flatMap (fun s => flatStep s.id s)).map Prod.fst) ∧
    (isOkE (validateSteps steps ids) = true ↔
      (∀ p ∈ steps.flatMap (fun s => flatStep s.id s), entryOk p) ∧
      freshFor ((steps.flatMap (fun s => flatStep s.id s)).map Prod.fst)
        ids) := by
  induction steps with
  | nil =>
      intro ids
      constructor
      · intro r h
        simp only [validateSteps] at h
        injection h with h
        rw [← h]
        simp
      · simp only [validateSteps, isOkE_ok, List.flatMap_nil]
        constructor
        · intro _
          exact ⟨by simp, by simpa using freshFor_nil ids⟩
        · intro _
          trivial
  | cons st rest ih =>
      intro ids
      obtain ⟨ih1a, ih1b⟩ := validateStep_spec.1 st.id st ids
      have hflat : (st :: rest).flatMap (fun s => flatStep s.id s) =
          flatStep st.id st ++ rest.flatMap (fun s => flatStep s.id s) := by
        simp
      cases hs : validateStep st.id st ids with
      | error e =>
          have hval : validateSteps (st :: rest) ids = .error e := by
            simp only [validateSteps]
            rw [hs]
            rfl
          constructor
          · intro r h
            rw [hval] at h
            exact Except.noConfusion h
          · rw [hval, isOkE_err]
            simp only [Bool.false_eq_true, false_iff]
            rintro ⟨hall, hfresh⟩
            rw [hflat] at hall hfresh
            simp only [List.map_append] at hfresh
            rw [freshFor_append] at hfresh
            have hok1 : isOkE (validateStep st.id st ids) = true :=
              ih1b.mpr ⟨fun p hp => hall p (List.mem_append_left _ hp),
                hfresh.1⟩
            rw [hs, isOkE_err] at hok1
            exact Bool.noConfusion hok1
      | ok ids2 =>
          have hval : validateSteps (st :: rest) ids =
              validateSteps rest ids2 := by
            simp only [validateSteps]
            rw [hs]
            rfl
          have hids2 : ids2 = ids ++ (flatStep st.id st).map Prod.fst :=
            ih1a ids2 hs
          have hok1 := ih1b.mp (by rw [hs]; rfl)
          obtain ⟨ihra, ihrb⟩ := ih ids2
          constructor
          · intro r h
            rw [hval] at h
            have hr := ihra r h
            rw [hr, hids2, hflat]
            simp [List.append_assoc]
          · rw [hval]
            constructor
            · intro hok
              obtain ⟨hallR, hfreshR⟩ := ihrb.mp hok
              rw [hflat]
              constructor
              · rintro p hp
                rcases List.mem_append.mp hp with hl | hr2
                · exact hok1.1 p hl
                · exact hallR p hr2
              · simp only [List.map_append]
                rw [freshFor_append]
                refine ⟨hok1.2, ?_⟩
                rw [hids2] at hfreshR
                exact hfreshR
            · rintro ⟨hallC, hfreshC⟩
              apply ihrb.mpr
              rw [hflat] at hallC hfreshC
              simp only [List.map_append] at hfreshC
              rw [freshFor_append] at hfreshC
              refine ⟨fun p hp => hallC p (List.mem_append_right _ hp), ?_⟩
              rw [hids2]
              exact hfreshC.2

/-- The top-level dependency loop visits exactly the spec's flattened
steps. -/
theorem specFlat_snd (steps : List StepDef) :
    (flatBranchSteps "" "" steps).map Prod.snd =
      (steps.flatMap (fun s => flatStep s.id s)).map Prod.snd := by
  induction steps with
  | nil => rfl
  | cons st rest ih =>
      simp only [flatBranchSteps, List.flatMap_cons, List.map_append]
      rw [flat_snd_spec.1 ("" ++ "." ++ "" ++ "." ++ st.id) st st.id, ih]

/-- Quantifying over second components. -/
theorem forall_snd {α β : Type} (l : List (α × β)) (P : β → Prop) :
    (∀ s2 ∈ l.map Prod.snd, P s2) ↔ ∀ p ∈ l, P p.2 := by
  constructor
  · intro h p hp
    exact h p.2 (List.mem_map_of_mem _ hp)
  · intro h s2 hs2
    obtain ⟨p, hp, rfl⟩ := List.mem_map.mp hs2
    exact h p hp



/-- The declarative success conditions are exactly the absence of every
claimed violation. -/
theorem okConditions_iff (spec : FlowSpec) :
    okConditions spec ↔ ¬ claimViolationSome spec := by
  unfold okConditions claimViolationSome
  constructor
  · rintro ⟨h1, h2, h3, h4⟩ viol
    rcases viol with v | v | v | v | v | v | v | v | v
    · exact h1 v
    · obtain ⟨p, hp, hv⟩ := v
      exact (h2 p hp).1 hv
    · exact v h3
    · obtain ⟨p, hp, hv⟩ := v
      exact hv (h2 p hp).2.1
    · obtain ⟨p, hp, d, hd, hv⟩ := v
      exact hv (h4 p hp d hd)
    · obtain ⟨p, hp, hv⟩ := v
      exact (h2 p hp).2.2.1 hv
    · obtain ⟨p, hp, hty, hbr⟩ := v
      exact ((h2 p hp).2.2.2 hty).1 hbr
    · obtain ⟨p, hp, hty, b, hb, hv⟩ := v
      rcases hv with hv | hv
      · exact (((h2 p hp).2.2.2 hty).2.1 b hb).1 hv
      · exact (((h2 p hp).2.2.2 hty).2.1 b hb).2 hv
    · obtain ⟨p, hp, hty, hv⟩ := v
      exact hv ((h2 p hp).2.2.2 hty).2.2
  · intro hnv
    refine ⟨?_, ?_, ?_, ?_⟩
    · intro h
      exact hnv (.inl h)
    · intro p hp
      refine ⟨?_, ?_, ?_, ?_⟩
      · intro h
        exact hnv (.inr (.inl ⟨p, hp, h⟩))
      · by_contra h
        exact hnv (.inr (.inr (.inr (.inl ⟨p, hp, h⟩))))
      · intro h
        exact hnv (.inr (.inr (.inr (.inr (.inr (.inl ⟨p, hp, h⟩))))))
      · intro hty
        refine ⟨?_, ?_, ?_⟩
        · intro h
          exact hnv (.inr (.inr (.inr (.inr (.inr (.inr
            (.inl ⟨p, hp, hty, h⟩)))))))
        · intro b hb
          constructor
          · intro h
            exact hnv (.inr (.inr (.inr (.inr (.inr (.inr (.inr
              (.inl ⟨p, hp, hty, b, hb, .inl h⟩))))))))
          · intro h
            exact hnv (.inr (.inr (.inr (.inr (.inr (.inr (.inr
              (.inl ⟨p, hp, hty, b, hb, .inr h⟩))))))))
        · by_contra h
          exact hnv (.inr (.inr (.inr (.inr (.inr (.inr (.inr
            (.inr ⟨p, hp, hty, h⟩))))))))
    · by_contra h
      exact hnv (.inr (.inr (.inl h)))
    · intro p hp d hd
      by_contra h
      exact hnv (.inr (.inr (.inr (.inr (.inl ⟨p, hp, d, hd, h⟩)))))

/-- C7: `Validate` accepts a spec exactly when none of the claim's
offending conditions holds, and returns a typed validation error
(identifying the offending step and field) whenever one does. -/
theorem c7_validate_error_iff (spec : Option FlowSpec) :
    (validate spec = .ok () ↔ ¬ claimViolation spec) ∧
    (claimViolation spec → ∃ e, validate spec = .error e) := by
  have hmain : validate spec = .ok () ↔ ¬ claimViolation spec := by
    cases spec with
    | none =>
        simp only [validate, claimViolation]
        constructor
        · intro h
          exact Except.noConfusion h
        · intro h
          exact absurd trivial h
    | some spec =>
        show _ ↔ ¬ claimViolationSome spec
        by_cases hemp : spec.steps.isEmpty = true
        · have hnil : spec.steps = [] := by simpa using hemp
          have hval : validate (some spec) = .error ⟨"", "", .emptySteps⟩ := by
            simp only [validate]
            rw [if_pos hemp]
          rw [hval]
          constructor
          · intro h
            exact Except.noConfusion h
          · intro h
            exact absurd (show claimViolationSome spec from .inl hnil) h
        · obtain ⟨hsa, hsb⟩ := validateSteps_spec spec.steps []
          cases hvs : validateSteps spec.steps [] with
          | error e =>
              have hval : validate (some spec) = .error e := by
                simp only [validate]
                rw [if_neg hemp, hvs]
                rfl
              rw [hval]
              constructor
              · intro h
                exact Except.noConfusion h
              · intro h
                exfalso
                have hcond := (okConditions_iff spec).mpr h
                have hok : isOkE (validateSteps spec.steps []) = true :=
                  hsb.mpr ⟨hcond.2.1, hcond.2.2.1, by simp⟩
                rw [hvs, isOkE_err] at hok
                exact Bool.noConfusion hok
          | ok ids2 =>
              have hids2 : ids2 = (specFlat spec).map Prod.fst := by
                have hq := hsa ids2 hvs
                simpa using hq
              have hstepsOk := hsb.mp (by rw [hvs]; rfl)
              have hval : validate (some spec) =
                  validateDeps spec.steps ids2 := by
                simp only [validate]
                rw [if_neg hemp, hvs]
                rfl
              rw [hval, validateDeps_spec.2.2 spec.steps ids2]
              have hsnd : (flatBranchSteps "" "" spec.steps).map Prod.snd =
                  (specFlat spec).map Prod.snd := specFlat_snd spec.steps
              rw [hsnd, forall_snd, hids2, ← okConditions_iff]
              constructor
              · intro hdeps
                exact ⟨fun h => hemp (by rw [h]; rfl), hstepsOk.1,
                  hstepsOk.2.1, hdeps⟩
              · intro hcond
                exact hcond.2.2.2
  refine ⟨hmain, ?_⟩
  intro hviol
  cases hv : validate spec with
  | ok u =>
      cases u
      exact absurd hviol (hmain.mp hv)
  | error e =>
      exact ⟨e, rfl⟩



/-- C7 witness: the equivalence evaluated on the valid one-parallel spec
and on a spec depending on an unknown step. -/
theorem c7_validate_error_iff_witness :
    (validate (some pOnlySpec) = .ok () ↔
      ¬ claimViolation (some pOnlySpec)) ∧
    claimViolation (some c7badSpec) ∧
    ∃ e, validate (some c7badSpec) = .error e :=
  ⟨(c7_validate_error_iff (some pOnlySpec)).1, by decide,
    (c7_validate_error_iff (some c7badSpec)).2 (by decide)⟩

end Automata
